import Mathlib

/-
Verification of the delink tree-relinking tool (src/main.rs) against its
specification.  The filesystem is modelled as a finite tree: a directory is
an ordered association list of named nodes, a node is a regular file (with
byte content modelled as a String), a directory, or a symbolic link storing
its raw target (an absolute/relative flag plus a component list; targets are
modelled as plain component lists, without dot components).  Absolute paths
are component lists from the root.  OS path resolution (canonicalize) is a
fuel-indexed resolver: each symbolic-link expansion consumes one unit of
fuel and exhaustion is the ELOOP ("too many levels of symbolic links")
condition, mirroring the kernel's bounded link-traversal budget.  All
definitions are structurally recursive so that they evaluate inside the
kernel.
-/

set_option maxHeartbeats 1000000

namespace Delink

/-- Absolute filesystem path: component list from the root. -/
abbrev Path := List String

/-- Filesystem node: regular file with content, directory with ordered
named entries, or symbolic link storing its raw stored target
(absolute flag plus components), mirroring the on-disk link text read by
read_link in src/main.rs. -/
inductive Node where
  | file (content : String)
  | dir (entries : List (String × Node))
  | link (absolute : Bool) (target : List String)

/-- A directory's ordered entry list; the list order is the model's
"filesystem-provided" enumeration order used by read_dir. -/
abbrev Entries := List (String × Node)

/-- The error kinds the program distinguishes: NotFound (maybe_remove_file
tolerance), the ELOOP condition raw_os_error 40 (resolve_symlink recovery),
and the remaining fatal kinds.  fuelOut is an artifact of the fuel-indexed
interpreter, standing for a recursion budget exhaustion that the real
program does not have. -/
inductive IoErr where
  | notFound | loop | notDir | isDir | alreadyExists | fuelOut
deriving DecidableEq

/-- Look up a name in a directory's entry list. -/
def getEntry (es : Entries) (n : String) : Option Node :=
  match es with
  | [] => none
  | e :: rest => if e.1 == n then some e.2 else getEntry rest n

/-- Replace the entry named n in place, or append it at the end; models
creating an entry in a directory (new entries enumerate last). -/
def insertEntry (n : String) (x : Node) (es : Entries) : Entries :=
  match es with
  | [] => [(n, x)]
  | e :: rest => if e.1 == n then (n, x) :: rest else e :: insertEntry n x rest

/-- Delete the entry named n (first occurrence) from a directory. -/
def removeEntry (n : String) (es : Entries) : Entries :=
  match es with
  | [] => []
  | e :: rest => if e.1 == n then rest else e :: removeEntry n rest

/-- Split a path into its parent (dropLast) and final component; none for
the root.  Models Path::parent / Path::file_name. -/
def splitLast : Path → Option (Path × String)
  | [] => none
  | n :: rest =>
    match splitLast rest with
    | some (q, l) => some (n :: q, l)
    | none => some ([], n)

/-- Raw lookup of a path in the tree, following no symbolic link at all:
every intermediate component must be a real directory; the final node is
returned as stored.  Used at link-free (already canonical) prefixes. -/
def rawLookup : Entries → Path → Option Node
  | es, [] => some (.dir es)
  | es, [n] => getEntry es n
  | es, n :: rest =>
    match getEntry es n with
    | some (.dir es2) => rawLookup es2 rest
    | _ => none

/-- Apply an update to the entry list of the directory at the given
link-free path; identity off that path. -/
def updateDirAt : Path → (Entries → Entries) → Entries → Entries
  | [], f, es => f es
  | n :: rest, f, es =>
    es.map fun e =>
      if e.1 == n then
        match e.2 with
        | .dir es2 => (e.1, .dir (updateDirAt rest f es2))
        | _ => e
      else e

/-- One layer of path resolution: walk the components from the already
resolved directory acc; a symbolic link defers to recFull, the
resolver with one less unit of link budget. -/
def canonStep (fs : Entries) (recFull : Path → List String → Except IoErr Path) :
    Path → List String → Except IoErr Path
  | acc, [] => .ok acc
  | acc, c :: rest =>
    match rawLookup fs (acc ++ [c]) with
    | none => .error .notFound
    | some (.file _) => if rest = [] then .ok (acc ++ [c]) else .error .notDir
    | some (.dir _) => canonStep fs recFull (acc ++ [c]) rest
    | some (.link ab tgt) =>
      match recFull (if ab then [] else acc) tgt with
      | .error e => .error e
      | .ok acc2 => recFull acc2 rest

/-- Fuel-indexed full path resolution; hitting a symbolic link with no
remaining budget is the ELOOP condition. -/
def canonAux (fs : Entries) : Nat → Path → List String → Except IoErr Path
  | 0 => canonStep fs fun _ _ => .error .loop
  | fuel + 1 => canonStep fs fun acc comps => canonAux fs fuel acc comps

/-- The kernel's symbolic-link traversal budget (Linux SYMLOOP_MAX). -/
def linkDepthLimit : Nat := 40

/-- PathBuf::canonicalize: fully resolve a path, following every symbolic
link, failing with notFound for missing entries and loop (ELOOP) for
self-referential link chains. -/
def canonicalize (fs : Entries) (p : Path) : Except IoErr Path :=
  canonAux fs linkDepthLimit [] p

/-- Path::symlink_metadata: resolve the parent fully, then report the final
node itself without following a link at the final component. -/
def lstat (fs : Entries) (p : Path) : Except IoErr Node :=
  match splitLast p with
  | none => .ok (.dir fs)
  | some (parent, last) =>
    match canonicalize fs parent with
    | .error e => .error e
    | .ok cp =>
      match rawLookup fs (cp ++ [last]) with
      | none => .error .notFound
      | some node => .ok node

/-- stat: resolve the path fully (following links) and report the node. -/
def statFollow (fs : Entries) (p : Path) : Except IoErr Node :=
  match canonicalize fs p with
  | .error e => .error e
  | .ok cp =>
    match rawLookup fs cp with
    | none => .error .notFound
    | some node => .ok node

/-- Path::is_file: true exactly when stat succeeds with a regular file. -/
def isFile (fs : Entries) (p : Path) : Bool :=
  match statFollow fs p with
  | .ok (.file _) => true
  | _ => false

/-- Path::is_dir: true exactly when stat succeeds with a directory. -/
def isDir (fs : Entries) (p : Path) : Bool :=
  match statFollow fs p with
  | .ok (.dir _) => true
  | _ => false

/-- read_dir: the entry names of the directory the path resolves to, in the
stored (filesystem-provided) order. -/
def readDirNames (fs : Entries) (p : Path) : Except IoErr (List String) :=
  match statFollow fs p with
  | .ok (.dir es) => .ok (es.map (fun e => e.1))
  | .ok _ => .error .notDir
  | .error e => .error e

/-- Read a regular file's content, following links (source side of
fs::copy). -/
def readFileFollow (fs : Entries) (p : Path) : Except IoErr String :=
  match statFollow fs p with
  | .ok (.file c) => .ok c
  | .ok _ => .error .isDir
  | .error e => .error e

/-- Write content at a path (destination side of fs::copy): truncate an
existing regular file after following links, or create a fresh file in the
canonicalized parent directory when the path does not exist. -/
def writeFile (fs : Entries) (p : Path) (c : String) : Except IoErr Entries :=
  match canonicalize fs p with
  | .ok cp =>
    match rawLookup fs cp with
    | some (.file _) =>
      match splitLast cp with
      | some (parent, last) => .ok (updateDirAt parent (insertEntry last (.file c)) fs)
      | none => .error .isDir
    | some _ => .error .isDir
    | none => .error .notFound
  | .error .notFound =>
    match splitLast p with
    | none => .error .isDir
    | some (parent, last) =>
      match canonicalize fs parent with
      | .error e => .error e
      | .ok cparent =>
        match rawLookup fs cparent with
        | some (.dir _) => .ok (updateDirAt cparent (insertEntry last (.file c)) fs)
        | some _ => .error .notDir
        | none => .error .notFound
  | .error e => .error e

/-- fs::remove_file: unlink the final entry (a file or a symbolic link,
never a directory) after resolving the parent. -/
def removeFile (fs : Entries) (p : Path) : Except IoErr Entries :=
  match splitLast p with
  | none => .error .isDir
  | some (parent, last) =>
    match canonicalize fs parent with
    | .error e => .error e
    | .ok cparent =>
      match rawLookup fs cparent with
      | some (.dir es) =>
        match getEntry es last with
        | none => .error .notFound
        | some (.dir _) => .error .isDir
        | some _ => .ok (updateDirAt cparent (removeEntry last) fs)
      | some _ => .error .notDir
      | none => .error .notFound

/-- maybe_remove_file from src/main.rs: removal tolerating NotFound. -/
def maybeRemoveFile (fs : Entries) (p : Path) : Except IoErr Entries :=
  match removeFile fs p with
  | .ok fs2 => .ok fs2
  | .error .notFound => .ok fs
  | .error e => .error e

/-- fs::create_dir: create an empty directory in the resolved parent;
fails if any entry (of any kind) already occupies the name. -/
def createDir (fs : Entries) (p : Path) : Except IoErr Entries :=
  match splitLast p with
  | none => .error .alreadyExists
  | some (parent, last) =>
    match canonicalize fs parent with
    | .error e => .error e
    | .ok cparent =>
      match rawLookup fs cparent with
      | some (.dir es) =>
        match getEntry es last with
        | some _ => .error .alreadyExists
        | none => .ok (updateDirAt cparent (insertEntry last (.dir [])) fs)
      | some _ => .error .notDir
      | none => .error .notFound

/-- fs::copy dest path: read dest's bytes (following links) and write them
at path. -/
def copyFile (fs : Entries) (dest p : Path) : Except IoErr Entries :=
  match readFileFollow fs dest with
  | .error e => .error e
  | .ok c => writeFile fs p c

/-- Path::try_exists: follows links, so a broken chain reports false;
other resolution failures surface as errors. -/
def tryExists (fs : Entries) (p : Path) : Except IoErr Bool :=
  match canonicalize fs p with
  | .ok _ => .ok true
  | .error .notFound => .ok false
  | .error e => .error e

/-- The platform debug rendering of an absolute path, as printed by the
report lines. -/
def pathRepr (p : Path) : String :=
  "\"/" ++ String.intercalate "/" p ++ "\""

def copyLine (dest p : Path) : String :=
  "COPY " ++ pathRepr dest ++ " => " ++ pathRepr p

def populateLine (dest p : Path) : String :=
  "POPULATE " ++ pathRepr dest ++ " => " ++ pathRepr p

def skipSelfLine (p : Path) : String :=
  "SKIP SELF REFERENCE " ++ pathRepr p

def skipRecLine (p : Path) : String :=
  "SKIP RECURSIVE " ++ pathRepr p

/-- inner_resolve_symlink from src/main.rs: Ok none when the path's own
metadata is not a symbolic link; otherwise read the stored target, resolve
a relative target against the link's parent, and canonicalize. -/
def innerResolveSymlink (fs : Entries) (p : Path) : Except IoErr (Option Path) :=
  match lstat fs p with
  | .error e => .error e
  | .ok (.link ab tgt) =>
    match splitLast p with
    | some (parent, _) =>
      if ab then (canonicalize fs tgt).map some
      else (canonicalize fs (parent ++ tgt)).map some
    | none => (canonicalize fs tgt).map some
  | .ok _ => .ok none

/-- resolve_symlink from src/main.rs: recover exactly the ELOOP failure of
the inner resolution by reporting SKIP SELF REFERENCE and returning Ok
none; every other failure propagates.  The sink is an abstract emit
function whose result is discarded, mirroring the ignored writeln result. -/
def resolveSymlinkF {σ : Type} (emit : String → σ → σ) (fs : Entries) (p : Path)
    (sk : σ) : Except IoErr (Option Path) × σ :=
  match innerResolveSymlink fs p with
  | .ok x => (.ok x, sk)
  | .error .loop => (.ok none, emit (skipSelfLine p) sk)
  | .error e => (.error e, sk)

/-- The pending work items of the recursive relink interpreter: one is a
single relink(path, symlink_dest) call; many is the populate loop over the
remaining entry names of an already-resolved source directory; walk is the
descend loop of a non-link directory over its remaining entry names. -/
inductive Job where
  | one (path : Path) (tgt : Option Path)
  | many (path dest : Path) (names : List String)
  | walk (path : Path) (names : List String)

/-- The relink function of src/main.rs as a fuel-indexed interpreter over
the filesystem tree.  Each recursive call consumes one unit of fuel;
exhaustion returns the artificial fuelOut error.  The result is the
Ok/error status, the filesystem after all performed mutations, and the
sink state after all emitted report lines. -/
def relinkGo {σ : Type} (emit : String → σ → σ) :
    Nat → Job → Entries → σ → Except IoErr Unit × Entries × σ
  | 0, _, fs, sk => (.error .fuelOut, fs, sk)
  | fuel + 1, .one path (some dest), fs, sk =>
    if dest = path then
      (.ok (), fs, emit (skipSelfLine dest) sk)
    else if isFile fs dest then
      let sk1 := emit (copyLine dest path) sk
      match maybeRemoveFile fs path with
      | .error e => (.error e, fs, sk1)
      | .ok fs1 =>
        match copyFile fs1 dest path with
        | .error e => (.error e, fs1, sk1)
        | .ok fs2 => (.ok (), fs2, sk1)
    else if dest.isPrefixOf path then
      (.ok (), fs, emit (skipRecLine path) sk)
    else
      let sk1 := emit (populateLine dest path) sk
      match maybeRemoveFile fs path with
      | .error e => (.error e, fs, sk1)
      | .ok fs1 =>
        match createDir fs1 path with
        | .error e => (.error e, fs1, sk1)
        | .ok fs2 =>
          match readDirNames fs2 dest with
          | .error e => (.error e, fs2, sk1)
          | .ok names => relinkGo emit fuel (.many path dest names) fs2 sk1
  | fuel + 1, .one path none, fs, sk =>
    if isDir fs path then
      match readDirNames fs path with
      | .error e => (.error e, fs, sk)
      | .ok names => relinkGo emit fuel (.walk path names) fs sk
    else
      (.ok (), fs, sk)
  | _ + 1, .many _ _ [], fs, sk => (.ok (), fs, sk)
  | fuel + 1, .many path dest (n :: ns), fs, sk =>
    match relinkGo emit fuel (.one (path ++ [n]) (some (dest ++ [n]))) fs sk with
    | (.ok _, fs1, sk1) => relinkGo emit fuel (.many path dest ns) fs1 sk1
    | r => r
  | _ + 1, .walk _ [], fs, sk => (.ok (), fs, sk)
  | fuel + 1, .walk path (n :: ns), fs, sk =>
    match resolveSymlinkF emit fs (path ++ [n]) sk with
    | (.error e, sk1) => (.error e, fs, sk1)
    | (.ok d, sk1) =>
      match relinkGo emit fuel (.one (path ++ [n]) d) fs sk1 with
      | (.ok _, fs1, sk2) => relinkGo emit fuel (.walk path ns) fs1 sk2
      | r => r

/-- relink(path, symlink_dest): a single call of the recursive function. -/
def relinkF {σ : Type} (emit : String → σ → σ) (fuel : Nat) (path : Path)
    (tgt : Option Path) (fs : Entries) (sk : σ) : Except IoErr Unit × Entries × σ :=
  relinkGo emit fuel (.one path tgt) fs sk

/-- The populate loop body: relink every remaining entry name of the
already-resolved source directory dest into path. -/
def relinkChildrenF {σ : Type} (emit : String → σ → σ) (fuel : Nat)
    (path dest : Path) (names : List String) (fs : Entries) (sk : σ) :
    Except IoErr Unit × Entries × σ :=
  relinkGo emit fuel (.many path dest names) fs sk

/-- The non-link directory descend loop body. -/
def relinkWalkF {σ : Type} (emit : String → σ → σ) (fuel : Nat)
    (path : Path) (names : List String) (fs : Entries) (sk : σ) :
    Except IoErr Unit × Entries × σ :=
  relinkGo emit fuel (.walk path names) fs sk

/-- A user-supplied input path: possibly relative, as handed to exec. -/
structure RawPath where
  absolute : Bool
  comps : List String

/-- path::absolute: prepend the current working directory to a relative
path; purely syntactic, no link is resolved. -/
def absolutize (cwd : Path) (p : RawPath) : Path :=
  if p.absolute then p.comps else cwd ++ p.comps

/-- The platform debug rendering of an input path as supplied. -/
def rawRepr (p : RawPath) : String :=
  if p.absolute then pathRepr p.comps
  else "\"" ++ String.intercalate "/" p.comps ++ "\""

def skipInputLine (p : RawPath) : String :=
  "SKIP INPUT " ++ rawRepr p

/-- exec from src/main.rs: process the inputs in order; an input whose
existence check (following links) does not positively succeed is reported
SKIP INPUT and skipped; an existing input is classified by resolve_symlink
and relinked once at its absolute form; any error aborts the remaining
inputs.  The source calls try_exists and resolve_symlink on the input as
supplied and lets the OS resolve a relative path against the working
directory; the model applies the same syntactic absolutization first,
which resolves identically against the same cwd (only the debug rendering
of a relative path inside a SKIP SELF REFERENCE line would differ). -/
def execF {σ : Type} (emit : String → σ → σ) (cwd : Path) (fuel : Nat) :
    List RawPath → Entries → σ → Except IoErr Unit × Entries × σ
  | [], fs, sk => (.ok (), fs, sk)
  | p :: ps, fs, sk =>
    let ap := absolutize cwd p
    match tryExists fs ap with
    | .ok true =>
      match resolveSymlinkF emit fs ap sk with
      | (.error e, sk1) => (.error e, fs, sk1)
      | (.ok d, sk1) =>
        match relinkF emit fuel ap d fs sk1 with
        | (.ok _, fs1, sk2) => execF emit cwd fuel ps fs1 sk2
        | r => r
    | _ => execF emit cwd fuel ps fs (emit (skipInputLine p) sk)

/-- The concrete sink: an append-only list of report lines, every write
succeeding. -/
def emitL (l : String) (sk : List String) : List String := sk ++ [l]

/-- A path whose raw lookup is a real file or directory (hence all its
prefixes are real directories and no symbolic link occurs along it). -/
def solidAt (fs : Entries) (p : Path) : Bool :=
  match rawLookup fs p with
  | some (.dir _) => true
  | some (.file _) => true
  | _ => false

/-- No symbolic link occurs anywhere in the tree. -/
def entriesLinkFree : Entries → Bool
  | [] => true
  | (_, .file _) :: es => entriesLinkFree es
  | (_, .link _ _) :: _ => false
  | (_, .dir ds) :: es => entriesLinkFree ds && entriesLinkFree es

/-- No symbolic link occurs at or below this node. -/
def nodeLinkFree : Node → Bool
  | .file _ => true
  | .link _ _ => false
  | .dir ds => entriesLinkFree ds

/-- Whether a node is a symbolic link. -/
def Node.isLink : Node → Bool
  | .link _ _ => true
  | _ => false

theorem splitLast_append (q : Path) (n : String) : splitLast (q ++ [n]) = some (q, n) := by
  induction q with
  | nil => rfl
  | cons a q ih => simp [splitLast, ih]

theorem splitLast_eq_none (p : Path) (h : splitLast p = none) : p = [] := by
  cases p with
  | nil => rfl
  | cons a rest =>
    simp only [splitLast] at h
    cases hr : splitLast rest with
    | none => rw [hr] at h; simp at h
    | some ql => rw [hr] at h; simp at h

theorem splitLast_eq_some (p : Path) (q : Path) (n : String)
    (h : splitLast p = some (q, n)) : p = q ++ [n] := by
  induction p generalizing q with
  | nil => simp [splitLast] at h
  | cons a rest ih =>
    simp only [splitLast] at h
    cases hr : splitLast rest with
    | none =>
      rw [hr] at h
      have hre := splitLast_eq_none rest hr
      simp only [Option.some.injEq, Prod.mk.injEq] at h
      subst hre
      rw [← h.1, ← h.2]
      rfl
    | some ql =>
      rw [hr] at h
      obtain ⟨q1, l1⟩ := ql
      simp only [Option.some.injEq, Prod.mk.injEq] at h
      obtain ⟨h1, h2⟩ := h
      subst h2
      rw [← h1, ih q1 hr]
      rfl

theorem getEntry_insertEntry_self (es : Entries) (n : String) (x : Node) :
    getEntry (insertEntry n x es) n = some x := by
  induction es with
  | nil => simp [insertEntry, getEntry]
  | cons e rest ih =>
    by_cases h : e.1 = n
    · simp [insertEntry, getEntry, h]
    · have hb : (e.1 == n) = false := by simpa using h
      simp only [insertEntry, hb, Bool.false_eq_true, if_false, getEntry]
      exact ih

theorem rawLookup_append (es : Entries) (q r : Path) (hr : r ≠ []) :
    rawLookup es (q ++ r) =
      (match rawLookup es q with
       | some (.dir es2) => rawLookup es2 r
       | _ => none) := by
  induction q generalizing es with
  | nil => simp [rawLookup]
  | cons n q ih =>
    obtain ⟨c, r2, rfl⟩ : ∃ c rest, r = c :: rest := by
      cases r with
      | nil => exact absurd rfl hr
      | cons c rest => exact ⟨c, rest, rfl⟩
    cases q with
    | nil =>
      cases hg : getEntry es n with
      | none => simp [rawLookup, hg]
      | some node => cases node <;> simp [rawLookup, hg]
    | cons m q2 =>
      cases hg : getEntry es n with
      | none => simp [rawLookup, hg]
      | some node =>
        cases node with
        | dir es2 =>
          have h2 := ih es2
          simp only [List.cons_append] at h2 ⊢
          simp only [rawLookup, hg]
          exact h2
        | file c2 => simp [rawLookup, hg]
        | link ab tgt => simp [rawLookup, hg]

theorem rawLookup_snoc (es : Entries) (q : Path) (n : String) :
    rawLookup es (q ++ [n]) =
      (match rawLookup es q with
       | some (.dir es2) => getEntry es2 n
       | _ => none) := by
  rw [rawLookup_append es q [n] (by simp)]
  cases h : rawLookup es q with
  | none => rfl
  | some node => cases node <;> rfl

theorem getEntry_updateDirAt_cons (es : Entries) (n : String) (rest : Path)
    (f : Entries → Entries) :
    getEntry (updateDirAt (n :: rest) f es) n =
      (getEntry es n).map fun node =>
        match node with
        | .dir es2 => .dir (updateDirAt rest f es2)
        | x => x := by
  induction es with
  | nil => rfl
  | cons e es ih =>
    by_cases h : e.1 = n
    · have hb : (e.1 == n) = true := by simpa using h
      simp only [updateDirAt, List.map_cons, hb, if_true]
      cases he : e.2 with
      | dir es2 => simp [getEntry, hb, he]
      | file c => simp [getEntry, hb, he]
      | link ab tgt => simp [getEntry, hb, he]
    · have hb : (e.1 == n) = false := by simpa using h
      simp only [updateDirAt, List.map_cons, hb, Bool.false_eq_true, if_false, getEntry]
      simp only [updateDirAt] at ih
      exact ih

theorem canonStep_walk (fs : Entries) (recFull : Path → List String → Except IoErr Path)
    (q : Path) (es2 : Entries) :
    ∀ (acc : Path) (r : List String), rawLookup fs (acc ++ q) = some (.dir es2) →
      canonStep fs recFull acc (q ++ r) = canonStep fs recFull (acc ++ q) r := by
  induction q with
  | nil => intro acc r _; simp
  | cons c q ih =>
    intro acc r h
    have hstep : rawLookup fs ((acc ++ [c]) ++ q) = some (.dir es2) := by
      rw [List.append_assoc]
      simpa using h
    have hdir : ∃ es3, rawLookup fs (acc ++ [c]) = some (.dir es3) := by
      cases hq : q with
      | nil =>
        refine ⟨es2, ?_⟩
        rw [hq] at hstep
        simpa using hstep
      | cons m q2 =>
        rw [hq] at hstep
        rw [rawLookup_append fs (acc ++ [c]) (m :: q2) (by simp)] at hstep
        cases hl : rawLookup fs (acc ++ [c]) with
        | none => rw [hl] at hstep; simp at hstep
        | some node =>
          rw [hl] at hstep
          cases node with
          | dir es3 => exact ⟨es3, rfl⟩
          | file cc => simp at hstep
          | link ab tgt => simp at hstep
    obtain ⟨es3, hdir⟩ := hdir
    calc canonStep fs recFull acc ((c :: q) ++ r)
        = canonStep fs recFull (acc ++ [c]) (q ++ r) := by
          simp only [List.cons_append, canonStep, hdir]
          rfl
      _ = canonStep fs recFull ((acc ++ [c]) ++ q) r := ih (acc ++ [c]) r hstep
      _ = canonStep fs recFull (acc ++ (c :: q)) r := by rw [List.append_assoc]; rfl

theorem canonAux_walk (fs : Entries) (fuel : Nat) (acc : Path) (q : Path)
    (r : List String) (es2 : Entries) (h : rawLookup fs (acc ++ q) = some (.dir es2)) :
    canonAux fs fuel acc (q ++ r) = canonAux fs fuel (acc ++ q) r := by
  cases fuel with
  | zero => exact canonStep_walk fs _ q es2 acc r h
  | succ fuel => exact canonStep_walk fs _ q es2 acc r h

theorem canonicalize_of_dir (fs : Entries) (q : Path) (es : Entries)
    (h : rawLookup fs q = some (.dir es)) : canonicalize fs q = .ok q := by
  have h0 : rawLookup fs ([] ++ q) = some (.dir es) := by simpa using h
  have := canonAux_walk fs linkDepthLimit [] q [] es h0
  simp only [List.nil_append, List.append_nil] at this
  rw [canonicalize, this]
  rfl

theorem canonicalize_of_file (fs : Entries) (q : Path) (c : String)
    (h : rawLookup fs q = some (.file c)) : canonicalize fs q = .ok q := by
  rcases List.eq_nil_or_concat q with rfl | ⟨q0, n, rfl⟩
  · simp [rawLookup] at h
  · simp only [List.concat_eq_append] at h ⊢
    rw [rawLookup_snoc] at h
    cases hl : rawLookup fs q0 with
    | none => rw [hl] at h; simp at h
    | some node =>
      rw [hl] at h
      cases node with
      | file cc => simp at h
      | link ab tgt => simp at h
      | dir es0 =>
        have h0 : rawLookup fs ([] ++ q0) = some (.dir es0) := by simpa using hl
        have hw := canonAux_walk fs linkDepthLimit [] q0 [n] es0 h0
        simp only [List.nil_append] at hw
        rw [canonicalize, hw]
        have hsnoc : rawLookup fs (q0 ++ [n]) = some (.file c) := by
          rw [rawLookup_snoc, hl]
          exact h
        cases hfuel : linkDepthLimit with
        | zero => simp [canonAux, canonStep, hsnoc]
        | succ fuel2 => simp [canonAux, canonStep, hsnoc]

theorem canonicalize_snoc_none (fs : Entries) (q : Path) (n : String) (es : Entries)
    (h : rawLookup fs q = some (.dir es)) (h2 : getEntry es n = none) :
    canonicalize fs (q ++ [n]) = .error .notFound := by
  have h0 : rawLookup fs ([] ++ q) = some (.dir es) := by simpa using h
  have hw := canonAux_walk fs linkDepthLimit [] q [n] es h0
  simp only [List.nil_append] at hw ⊢
  rw [canonicalize, hw]
  have hsnoc : rawLookup fs (q ++ [n]) = none := by
    rw [rawLookup_snoc, h]
    exact h2
  cases hfuel : linkDepthLimit with
  | zero => simp [canonAux, canonStep, hsnoc]
  | succ fuel2 => simp [canonAux, canonStep, hsnoc]

theorem statFollow_of_dir (fs : Entries) (q : Path) (es : Entries)
    (h : rawLookup fs q = some (.dir es)) : statFollow fs q = .ok (.dir es) := by
  simp [statFollow, canonicalize_of_dir fs q es h, h]

theorem statFollow_of_file (fs : Entries) (q : Path) (c : String)
    (h : rawLookup fs q = some (.file c)) : statFollow fs q = .ok (.file c) := by
  simp [statFollow, canonicalize_of_file fs q c h, h]

theorem isFile_eq_false_of_isDir (fs : Entries) (p : Path) (h : isDir fs p = true) :
    isFile fs p = false := by
  cases hs : statFollow fs p with
  | error e => simp [isDir, hs] at h
  | ok node =>
    cases node with
    | dir es => simp [isFile, hs]
    | file c => simp [isDir, hs] at h
    | link ab tgt => simp [isDir, hs] at h

theorem canonStep_solid (fs : Entries)
    (recFull : Path → List String → Except IoErr Path)
    (hrec : ∀ acc comps r, solidAt fs acc = true → recFull acc comps = .ok r →
      solidAt fs r = true) :
    ∀ (comps : List String) (acc : Path) (r : Path), solidAt fs acc = true →
      canonStep fs recFull acc comps = .ok r → solidAt fs r = true := by
  intro comps
  induction comps with
  | nil =>
    intro acc r hacc hok
    simp only [canonStep, Except.ok.injEq] at hok
    rw [← hok]
    exact hacc
  | cons c rest ih =>
    intro acc r hacc hok
    simp only [canonStep] at hok
    cases hl : rawLookup fs (acc ++ [c]) with
    | none => rw [hl] at hok; simp at hok
    | some node =>
      rw [hl] at hok
      cases node with
      | file cc =>
        by_cases hr : rest = []
        · rw [if_pos hr] at hok
          simp only [Except.ok.injEq] at hok
          rw [← hok, solidAt, hl]
        · rw [if_neg hr] at hok
          simp at hok
      | dir es2 =>
        exact ih (acc ++ [c]) r (by rw [solidAt, hl]) hok
      | link ab tgt =>
        simp only [hl] at hok
        cases hrt : recFull (if ab then [] else acc) tgt with
        | error e => rw [hrt] at hok; simp at hok
        | ok acc2 =>
          rw [hrt] at hok
          have hbase : solidAt fs (if ab then [] else acc) = true := by
            cases ab with
            | true => rfl
            | false => simpa using hacc
          have hacc2 := hrec _ _ _ hbase hrt
          exact hrec _ _ _ hacc2 hok

theorem canonAux_solid (fs : Entries) :
    ∀ (fuel : Nat) (comps : List String) (acc : Path) (r : Path),
      solidAt fs acc = true → canonAux fs fuel acc comps = .ok r →
      solidAt fs r = true := by
  intro fuel
  induction fuel with
  | zero =>
    intro comps acc r hacc hok
    refine canonStep_solid fs _ ?_ comps acc r hacc hok
    intro _ _ _ _ hok2
    simp at hok2
  | succ fuel ih =>
    intro comps acc r hacc hok
    refine canonStep_solid fs _ ?_ comps acc r hacc hok
    intro acc3 comps3 r3 hacc3 hok3
    exact ih comps3 acc3 r3 hacc3 hok3

theorem canonicalize_solid (fs : Entries) (p cp : Path)
    (h : canonicalize fs p = .ok cp) : solidAt fs cp = true :=
  canonAux_solid fs linkDepthLimit p [] cp rfl h

theorem canonicalize_idem (fs : Entries) (p cp : Path)
    (h : canonicalize fs p = .ok cp) : canonicalize fs cp = .ok cp := by
  have hs := canonicalize_solid fs p cp h
  rw [solidAt] at hs
  cases hl : rawLookup fs cp with
  | none => rw [hl] at hs; simp at hs
  | some node =>
    rw [hl] at hs
    cases node with
    | dir es => exact canonicalize_of_dir fs cp es hl
    | file c => exact canonicalize_of_file fs cp c hl
    | link ab tgt => simp at hs

theorem statFollow_canon (fs : Entries) (p cp : Path)
    (h : canonicalize fs p = .ok cp) : statFollow fs p = statFollow fs cp := by
  rw [statFollow, statFollow, h, canonicalize_idem fs p cp h]

theorem isFile_canon (fs : Entries) (p cp : Path)
    (h : canonicalize fs p = .ok cp) : isFile fs p = isFile fs cp := by
  rw [isFile, isFile, statFollow_canon fs p cp h]

theorem isDir_canon (fs : Entries) (p cp : Path)
    (h : canonicalize fs p = .ok cp) : isDir fs p = isDir fs cp := by
  rw [isDir, isDir, statFollow_canon fs p cp h]

theorem getEntry_linkFree (es : Entries) (n : String) (node : Node)
    (hfs : entriesLinkFree es = true) (hg : getEntry es n = some node) :
    nodeLinkFree node = true := by
  induction es with
  | nil => simp [getEntry] at hg
  | cons e rest ih =>
    obtain ⟨m, nd⟩ := e
    cases nd with
    | file c =>
      rw [show entriesLinkFree ((m, .file c) :: rest) = entriesLinkFree rest by
        simp [entriesLinkFree]] at hfs
      simp only [getEntry] at hg
      by_cases hm : m = n
      · rw [if_pos (by simpa using hm)] at hg
        simp only [Option.some.injEq] at hg
        rw [← hg]
        rfl
      · rw [if_neg (by simpa using hm)] at hg
        exact ih hfs hg
    | link ab tgt => simp [entriesLinkFree] at hfs
    | dir ds =>
      rw [show entriesLinkFree ((m, .dir ds) :: rest)
          = (entriesLinkFree ds && entriesLinkFree rest) by simp [entriesLinkFree]] at hfs
      rw [Bool.and_eq_true] at hfs
      simp only [getEntry] at hg
      by_cases hm : m = n
      · rw [if_pos (by simpa using hm)] at hg
        simp only [Option.some.injEq] at hg
        rw [← hg]
        exact hfs.1
      · rw [if_neg (by simpa using hm)] at hg
        exact ih hfs.2 hg

theorem rawLookup_linkFree (q : Path) (es : Entries) (node : Node)
    (hfs : entriesLinkFree es = true) (hl : rawLookup es q = some node) :
    nodeLinkFree node = true := by
  induction q generalizing es with
  | nil =>
    simp only [rawLookup, Option.some.injEq] at hl
    rw [← hl]
    exact hfs
  | cons n q ih =>
    cases q with
    | nil =>
      simp only [rawLookup] at hl
      exact getEntry_linkFree es n node hfs hl
    | cons m q2 =>
      simp only [rawLookup] at hl
      cases hg : getEntry es n with
      | none => rw [hg] at hl; simp at hl
      | some node2 =>
        rw [hg] at hl
        cases node2 with
        | file c => simp at hl
        | link ab tgt => simp at hl
        | dir es2 =>
          have := getEntry_linkFree es n _ hfs hg
          exact ih es2 this hl

theorem canonStep_linkFree (fs : Entries) (hfs : entriesLinkFree fs = true)
    (recFull : Path → List String → Except IoErr Path) :
    ∀ (comps : List String) (acc : Path),
      canonStep fs recFull acc comps = .ok (acc ++ comps) ∨
      canonStep fs recFull acc comps = .error .notFound ∨
      canonStep fs recFull acc comps = .error .notDir := by
  intro comps
  induction comps with
  | nil => intro acc; left; simp [canonStep]
  | cons c rest ih =>
    intro acc
    simp only [canonStep]
    cases hl : rawLookup fs (acc ++ [c]) with
    | none => right; left; rfl
    | some node =>
      cases node with
      | file cc =>
        by_cases hr : rest = []
        · left
          rw [if_pos hr, hr]
        · right; right
          rw [if_neg hr]
      | dir es2 =>
        rcases ih (acc ++ [c]) with h | h | h
        · left; rw [h, List.append_assoc]; rfl
        · right; left; exact h
        · right; right; exact h
      | link ab tgt =>
        have := rawLookup_linkFree (acc ++ [c]) fs _ hfs hl
        simp [nodeLinkFree] at this

theorem canonicalize_linkFree (fs : Entries) (hfs : entriesLinkFree fs = true)
    (p : Path) :
    canonicalize fs p = .ok p ∨
    canonicalize fs p = .error .notFound ∨
    canonicalize fs p = .error .notDir := by
  rw [canonicalize]
  cases linkDepthLimit with
  | zero => simpa using canonStep_linkFree fs hfs _ p []
  | succ fuel => simpa using canonStep_linkFree fs hfs _ p []

theorem rawLookup_updateDirAt (q : Path) (es es2 : Entries) (f : Entries → Entries)
    (h : rawLookup es q = some (.dir es2)) :
    rawLookup (updateDirAt q f es) q = some (.dir (f es2)) := by
  induction q generalizing es es2 with
  | nil =>
    simp [rawLookup] at h
    simp [updateDirAt, rawLookup, ← h]
  | cons n q ih =>
    cases q with
    | nil =>
      simp only [rawLookup] at h ⊢
      rw [getEntry_updateDirAt_cons, h]
      rfl
    | cons m q2 =>
      simp only [rawLookup] at h ⊢
      cases hg : getEntry es n with
      | none => rw [hg] at h; simp at h
      | some node =>
        rw [hg] at h
        cases node with
        | file c => simp at h
        | link ab tgt => simp at h
        | dir es3 =>
          rw [getEntry_updateDirAt_cons, hg]
          exact ih es3 es2 h

theorem relinkGo_self_eq {σ : Type} (emit : String → σ → σ) (fuel : Nat)
    (path : Path) (fs : Entries) (sk : σ) :
    relinkGo emit (fuel + 1) (.one path (some path)) fs sk
      = (.ok (), fs, emit (skipSelfLine path) sk) := by
  simp [relinkGo]

theorem relinkGo_copy_eq {σ : Type} (emit : String → σ → σ) (fuel : Nat)
    (path dest : Path) (fs : Entries) (sk : σ)
    (he : dest ≠ path) (hf : isFile fs dest = true) :
    relinkGo emit (fuel + 1) (.one path (some dest)) fs sk
      = (match maybeRemoveFile fs path with
         | .error e => (.error e, fs, emit (copyLine dest path) sk)
         | .ok fs1 =>
           match copyFile fs1 dest path with
           | .error e => (.error e, fs1, emit (copyLine dest path) sk)
           | .ok fs2 => (.ok (), fs2, emit (copyLine dest path) sk)) := by
  simp only [relinkGo, he, if_false, hf, if_true]

theorem relinkGo_skiprec_eq {σ : Type} (emit : String → σ → σ) (fuel : Nat)
    (path dest : Path) (fs : Entries) (sk : σ)
    (he : dest ≠ path) (hf : isFile fs dest = false)
    (hp : dest.isPrefixOf path = true) :
    relinkGo emit (fuel + 1) (.one path (some dest)) fs sk
      = (.ok (), fs, emit (skipRecLine path) sk) := by
  simp [relinkGo, he, hf, hp]

theorem relinkGo_populate_eq {σ : Type} (emit : String → σ → σ) (fuel : Nat)
    (path dest : Path) (fs : Entries) (sk : σ)
    (he : dest ≠ path) (hf : isFile fs dest = false)
    (hp : dest.isPrefixOf path = false) :
    relinkGo emit (fuel + 1) (.one path (some dest)) fs sk
      = (match maybeRemoveFile fs path with
         | .error e => (.error e, fs, emit (populateLine dest path) sk)
         | .ok fs1 =>
           match createDir fs1 path with
           | .error e => (.error e, fs1, emit (populateLine dest path) sk)
           | .ok fs2 =>
             match readDirNames fs2 dest with
             | .error e => (.error e, fs2, emit (populateLine dest path) sk)
             | .ok names =>
               relinkGo emit fuel (.many path dest names) fs2
                 (emit (populateLine dest path) sk)) := by
  simp only [relinkGo, he, if_false, hf, hp, Bool.false_eq_true]

theorem relinkGo_none_dir_eq {σ : Type} (emit : String → σ → σ) (fuel : Nat)
    (path : Path) (fs : Entries) (sk : σ) (hd : isDir fs path = true) :
    relinkGo emit (fuel + 1) (.one path none) fs sk
      = (match readDirNames fs path with
         | .error e => (.error e, fs, sk)
         | .ok names => relinkGo emit fuel (.walk path names) fs sk) := by
  simp only [relinkGo, hd, if_true]

theorem relinkGo_none_other_eq {σ : Type} (emit : String → σ → σ) (fuel : Nat)
    (path : Path) (fs : Entries) (sk : σ) (hd : isDir fs path = false) :
    relinkGo emit (fuel + 1) (.one path none) fs sk = (.ok (), fs, sk) := by
  simp [relinkGo, hd]

theorem relinkGo_many_nil_eq {σ : Type} (emit : String → σ → σ) (fuel : Nat)
    (path dest : Path) (fs : Entries) (sk : σ) :
    relinkGo emit (fuel + 1) (.many path dest []) fs sk = (.ok (), fs, sk) := rfl

theorem relinkGo_many_cons_eq {σ : Type} (emit : String → σ → σ) (fuel : Nat)
    (path dest : Path) (n : String) (ns : List String) (fs : Entries) (sk : σ) :
    relinkGo emit (fuel + 1) (.many path dest (n :: ns)) fs sk
      = (match relinkGo emit fuel (.one (path ++ [n]) (some (dest ++ [n]))) fs sk with
         | (.ok _, fs1, sk1) => relinkGo emit fuel (.many path dest ns) fs1 sk1
         | r => r) := rfl

theorem relinkGo_walk_nil_eq {σ : Type} (emit : String → σ → σ) (fuel : Nat)
    (path : Path) (fs : Entries) (sk : σ) :
    relinkGo emit (fuel + 1) (.walk path []) fs sk = (.ok (), fs, sk) := rfl

theorem relinkGo_walk_cons_eq {σ : Type} (emit : String → σ → σ) (fuel : Nat)
    (path : Path) (n : String) (ns : List String) (fs : Entries) (sk : σ) :
    relinkGo emit (fuel + 1) (.walk path (n :: ns)) fs sk
      = (match resolveSymlinkF emit fs (path ++ [n]) sk with
         | (.error e, sk1) => (.error e, fs, sk1)
         | (.ok d, sk1) =>
           match relinkGo emit fuel (.one (path ++ [n]) d) fs sk1 with
           | (.ok _, fs1, sk2) => relinkGo emit fuel (.walk path ns) fs1 sk2
           | r => r) := rfl

theorem relinkGo_copy_removeErr {σ : Type} (emit : String → σ → σ) (fuel : Nat)
    (path dest : Path) (fs : Entries) (sk : σ) (e : IoErr)
    (he : dest ≠ path) (hf : isFile fs dest = true)
    (hm : maybeRemoveFile fs path = .error e) :
    relinkGo emit (fuel + 1) (.one path (some dest)) fs sk
      = (.error e, fs, emit (copyLine dest path) sk) := by
  rw [relinkGo_copy_eq emit fuel path dest fs sk he hf]
  simp only [hm]

theorem relinkGo_copy_copyErr {σ : Type} (emit : String → σ → σ) (fuel : Nat)
    (path dest : Path) (fs fs1 : Entries) (sk : σ) (e : IoErr)
    (he : dest ≠ path) (hf : isFile fs dest = true)
    (hm : maybeRemoveFile fs path = .ok fs1)
    (hc : copyFile fs1 dest path = .error e) :
    relinkGo emit (fuel + 1) (.one path (some dest)) fs sk
      = (.error e, fs1, emit (copyLine dest path) sk) := by
  rw [relinkGo_copy_eq emit fuel path dest fs sk he hf]
  simp only [hm, hc]

theorem relinkGo_copy_ok {σ : Type} (emit : String → σ → σ) (fuel : Nat)
    (path dest : Path) (fs fs1 fs2 : Entries) (sk : σ)
    (he : dest ≠ path) (hf : isFile fs dest = true)
    (hm : maybeRemoveFile fs path = .ok fs1)
    (hc : copyFile fs1 dest path = .ok fs2) :
    relinkGo emit (fuel + 1) (.one path (some dest)) fs sk
      = (.ok (), fs2, emit (copyLine dest path) sk) := by
  rw [relinkGo_copy_eq emit fuel path dest fs sk he hf]
  simp only [hm, hc]

theorem relinkGo_populate_removeErr {σ : Type} (emit : String → σ → σ) (fuel : Nat)
    (path dest : Path) (fs : Entries) (sk : σ) (e : IoErr)
    (he : dest ≠ path) (hf : isFile fs dest = false)
    (hp : dest.isPrefixOf path = false)
    (hm : maybeRemoveFile fs path = .error e) :
    relinkGo emit (fuel + 1) (.one path (some dest)) fs sk
      = (.error e, fs, emit (populateLine dest path) sk) := by
  rw [relinkGo_populate_eq emit fuel path dest fs sk he hf hp]
  simp only [hm]

theorem relinkGo_populate_createErr {σ : Type} (emit : String → σ → σ) (fuel : Nat)
    (path dest : Path) (fs fs1 : Entries) (sk : σ) (e : IoErr)
    (he : dest ≠ path) (hf : isFile fs dest = false)
    (hp : dest.isPrefixOf path = false)
    (hm : maybeRemoveFile fs path = .ok fs1)
    (hc : createDir fs1 path = .error e) :
    relinkGo emit (fuel + 1) (.one path (some dest)) fs sk
      = (.error e, fs1, emit (populateLine dest path) sk) := by
  rw [relinkGo_populate_eq emit fuel path dest fs sk he hf hp]
  simp only [hm, hc]

theorem relinkGo_populate_readErr {σ : Type} (emit : String → σ → σ) (fuel : Nat)
    (path dest : Path) (fs fs1 fs2 : Entries) (sk : σ) (e : IoErr)
    (he : dest ≠ path) (hf : isFile fs dest = false)
    (hp : dest.isPrefixOf path = false)
    (hm : maybeRemoveFile fs path = .ok fs1)
    (hc : createDir fs1 path = .ok fs2)
    (hn : readDirNames fs2 dest = .error e) :
    relinkGo emit (fuel + 1) (.one path (some dest)) fs sk
      = (.error e, fs2, emit (populateLine dest path) sk) := by
  rw [relinkGo_populate_eq emit fuel path dest fs sk he hf hp]
  simp only [hm, hc, hn]

theorem relinkGo_populate_ok {σ : Type} (emit : String → σ → σ) (fuel : Nat)
    (path dest : Path) (fs fs1 fs2 : Entries) (sk : σ) (names : List String)
    (he : dest ≠ path) (hf : isFile fs dest = false)
    (hp : dest.isPrefixOf path = false)
    (hm : maybeRemoveFile fs path = .ok fs1)
    (hc : createDir fs1 path = .ok fs2)
    (hn : readDirNames fs2 dest = .ok names) :
    relinkGo emit (fuel + 1) (.one path (some dest)) fs sk
      = relinkGo emit fuel (.many path dest names) fs2
          (emit (populateLine dest path) sk) := by
  rw [relinkGo_populate_eq emit fuel path dest fs sk he hf hp]
  simp only [hm, hc, hn]

theorem relinkGo_none_readErr {σ : Type} (emit : String → σ → σ) (fuel : Nat)
    (path : Path) (fs : Entries) (sk : σ) (e : IoErr)
    (hd : isDir fs path = true) (hn : readDirNames fs path = .error e) :
    relinkGo emit (fuel + 1) (.one path none) fs sk = (.error e, fs, sk) := by
  rw [relinkGo_none_dir_eq emit fuel path fs sk hd]
  simp only [hn]

theorem relinkGo_none_walk {σ : Type} (emit : String → σ → σ) (fuel : Nat)
    (path : Path) (fs : Entries) (sk : σ) (names : List String)
    (hd : isDir fs path = true) (hn : readDirNames fs path = .ok names) :
    relinkGo emit (fuel + 1) (.one path none) fs sk
      = relinkGo emit fuel (.walk path names) fs sk := by
  rw [relinkGo_none_dir_eq emit fuel path fs sk hd]
  simp only [hn]

theorem relinkGo_many_cons_err {σ : Type} (emit : String → σ → σ) (fuel : Nat)
    (path dest : Path) (n : String) (ns : List String) (fs fs1 : Entries)
    (sk sk1 : σ) (e : IoErr)
    (h : relinkGo emit fuel (.one (path ++ [n]) (some (dest ++ [n]))) fs sk
      = (.error e, fs1, sk1)) :
    relinkGo emit (fuel + 1) (.many path dest (n :: ns)) fs sk
      = (.error e, fs1, sk1) := by
  rw [relinkGo_many_cons_eq]
  simp only [h]

theorem relinkGo_many_cons_ok {σ : Type} (emit : String → σ → σ) (fuel : Nat)
    (path dest : Path) (n : String) (ns : List String) (fs fs1 : Entries)
    (sk sk1 : σ) (u : Unit)
    (h : relinkGo emit fuel (.one (path ++ [n]) (some (dest ++ [n]))) fs sk
      = (.ok u, fs1, sk1)) :
    relinkGo emit (fuel + 1) (.many path dest (n :: ns)) fs sk
      = relinkGo emit fuel (.many path dest ns) fs1 sk1 := by
  rw [relinkGo_many_cons_eq]
  simp only [h]

theorem relinkGo_walk_cons_resolveErr {σ : Type} (emit : String → σ → σ) (fuel : Nat)
    (path : Path) (n : String) (ns : List String) (fs : Entries)
    (sk sk1 : σ) (e : IoErr)
    (h : resolveSymlinkF emit fs (path ++ [n]) sk = (.error e, sk1)) :
    relinkGo emit (fuel + 1) (.walk path (n :: ns)) fs sk = (.error e, fs, sk1) := by
  rw [relinkGo_walk_cons_eq]
  simp only [h]

theorem relinkGo_walk_cons_stepErr {σ : Type} (emit : String → σ → σ) (fuel : Nat)
    (path : Path) (n : String) (ns : List String) (fs fs1 : Entries)
    (sk sk1 sk2 : σ) (d : Option Path) (e : IoErr)
    (h : resolveSymlinkF emit fs (path ++ [n]) sk = (.ok d, sk1))
    (h2 : relinkGo emit fuel (.one (path ++ [n]) d) fs sk1 = (.error e, fs1, sk2)) :
    relinkGo emit (fuel + 1) (.walk path (n :: ns)) fs sk = (.error e, fs1, sk2) := by
  rw [relinkGo_walk_cons_eq]
  simp only [h, h2]

theorem relinkGo_walk_cons_ok {σ : Type} (emit : String → σ → σ) (fuel : Nat)
    (path : Path) (n : String) (ns : List String) (fs fs1 : Entries)
    (sk sk1 sk2 : σ) (d : Option Path) (u : Unit)
    (h : resolveSymlinkF emit fs (path ++ [n]) sk = (.ok d, sk1))
    (h2 : relinkGo emit fuel (.one (path ++ [n]) d) fs sk1 = (.ok u, fs1, sk2)) :
    relinkGo emit (fuel + 1) (.walk path (n :: ns)) fs sk
      = relinkGo emit fuel (.walk path ns) fs1 sk2 := by
  rw [relinkGo_walk_cons_eq]
  simp only [h, h2]

theorem resolveSymlinkF_sink_mono (fs : Entries) (p : Path) (sk : List String) :
    ∃ t, (resolveSymlinkF emitL fs p sk).2 = sk ++ t := by
  rw [resolveSymlinkF]
  cases h : innerResolveSymlink fs p with
  | ok x => exact ⟨[], by simp⟩
  | error e =>
    cases e with
    | loop => exact ⟨[skipSelfLine p], rfl⟩
    | notFound => exact ⟨[], by simp⟩
    | notDir => exact ⟨[], by simp⟩
    | isDir => exact ⟨[], by simp⟩
    | alreadyExists => exact ⟨[], by simp⟩
    | fuelOut => exact ⟨[], by simp⟩

theorem relinkGo_sink_mono :
    ∀ (fuel : Nat) (job : Job) (fs : Entries) (sk : List String),
      ∃ t, (relinkGo emitL fuel job fs sk).2.2 = sk ++ t := by
  intro fuel
  induction fuel with
  | zero => intro job fs sk; exact ⟨[], by simp [relinkGo]⟩
  | succ fuel ih =>
    intro job fs sk
    cases job with
    | one path tgt =>
      cases tgt with
      | none =>
        cases hd : isDir fs path with
        | false =>
          rw [relinkGo_none_other_eq emitL fuel path fs sk hd]
          exact ⟨[], by simp⟩
        | true =>
          rw [relinkGo_none_dir_eq emitL fuel path fs sk hd]
          cases hn : readDirNames fs path with
          | error e => exact ⟨[], by simp⟩
          | ok names => exact ih (.walk path names) fs sk
      | some dest =>
        by_cases he : dest = path
        · subst he
          rw [relinkGo_self_eq]
          exact ⟨[skipSelfLine dest], rfl⟩
        · cases hf : isFile fs dest with
          | true =>
            cases hm : maybeRemoveFile fs path with
            | error e =>
              rw [relinkGo_copy_removeErr emitL fuel path dest fs sk e he hf hm]
              exact ⟨[copyLine dest path], rfl⟩
            | ok fs1 =>
              cases hc : copyFile fs1 dest path with
              | error e =>
                rw [relinkGo_copy_copyErr emitL fuel path dest fs fs1 sk e he hf hm hc]
                exact ⟨[copyLine dest path], rfl⟩
              | ok fs2 =>
                rw [relinkGo_copy_ok emitL fuel path dest fs fs1 fs2 sk he hf hm hc]
                exact ⟨[copyLine dest path], rfl⟩
          | false =>
            cases hp : dest.isPrefixOf path with
            | true =>
              rw [relinkGo_skiprec_eq emitL fuel path dest fs sk he hf hp]
              exact ⟨[skipRecLine path], rfl⟩
            | false =>
              cases hm : maybeRemoveFile fs path with
              | error e =>
                rw [relinkGo_populate_removeErr emitL fuel path dest fs sk e he hf hp hm]
                exact ⟨[populateLine dest path], rfl⟩
              | ok fs1 =>
                cases hc : createDir fs1 path with
                | error e =>
                  rw [relinkGo_populate_createErr emitL fuel path dest fs fs1 sk e
                    he hf hp hm hc]
                  exact ⟨[populateLine dest path], rfl⟩
                | ok fs2 =>
                  cases hn : readDirNames fs2 dest with
                  | error e =>
                    rw [relinkGo_populate_readErr emitL fuel path dest fs fs1 fs2 sk e
                      he hf hp hm hc hn]
                    exact ⟨[populateLine dest path], rfl⟩
                  | ok names =>
                    rw [relinkGo_populate_ok emitL fuel path dest fs fs1 fs2 sk names
                      he hf hp hm hc hn]
                    obtain ⟨t, ht⟩ :=
                      ih (.many path dest names) fs2 (emitL (populateLine dest path) sk)
                    refine ⟨populateLine dest path :: t, ?_⟩
                    rw [ht]
                    simp [emitL]
    | many path dest ns =>
      cases ns with
      | nil => exact ⟨[], by simp [relinkGo_many_nil_eq]⟩
      | cons n ns =>
        obtain ⟨t1, ht1⟩ := ih (.one (path ++ [n]) (some (dest ++ [n]))) fs sk
        rcases h1 : relinkGo emitL fuel (.one (path ++ [n]) (some (dest ++ [n]))) fs sk
          with ⟨st, fs1, sk1⟩
        rw [h1] at ht1
        have ht1b : sk1 = sk ++ t1 := ht1
        cases st with
        | error e =>
          rw [relinkGo_many_cons_err emitL fuel path dest n ns fs fs1 sk sk1 e h1]
          exact ⟨t1, ht1b⟩
        | ok u =>
          rw [relinkGo_many_cons_ok emitL fuel path dest n ns fs fs1 sk sk1 u h1]
          obtain ⟨t2, ht2⟩ := ih (.many path dest ns) fs1 sk1
          refine ⟨t1 ++ t2, ?_⟩
          rw [ht2, ht1b, List.append_assoc]
    | walk path ns =>
      cases ns with
      | nil => exact ⟨[], by simp [relinkGo_walk_nil_eq]⟩
      | cons n ns =>
        obtain ⟨t0, ht0⟩ := resolveSymlinkF_sink_mono fs (path ++ [n]) sk
        rcases hr : resolveSymlinkF emitL fs (path ++ [n]) sk with ⟨d, sk1⟩
        rw [hr] at ht0
        have ht0b : sk1 = sk ++ t0 := ht0
        cases d with
        | error e =>
          rw [relinkGo_walk_cons_resolveErr emitL fuel path n ns fs sk sk1 e hr]
          exact ⟨t0, ht0b⟩
        | ok dopt =>
          obtain ⟨t1, ht1⟩ := ih (.one (path ++ [n]) dopt) fs sk1
          rcases h1 : relinkGo emitL fuel (.one (path ++ [n]) dopt) fs sk1
            with ⟨st, fs1, sk2⟩
          rw [h1] at ht1
          have ht1b : sk2 = sk1 ++ t1 := ht1
          cases st with
          | error e =>
            rw [relinkGo_walk_cons_stepErr emitL fuel path n ns fs fs1 sk sk1 sk2 dopt e
              hr h1]
            refine ⟨t0 ++ t1, ?_⟩
            rw [ht1b, ht0b, List.append_assoc]
          | ok u =>
            rw [relinkGo_walk_cons_ok emitL fuel path n ns fs fs1 sk sk1 sk2 dopt u hr h1]
            obtain ⟨t2, ht2⟩ := ih (.walk path ns) fs1 sk2
            refine ⟨t0 ++ t1 ++ t2, ?_⟩
            rw [ht2, ht1b, ht0b]
            simp [List.append_assoc]

theorem resolveSymlinkF_indep {σ1 σ2 : Type} (e1 : String → σ1 → σ1)
    (e2 : String → σ2 → σ2) (fs : Entries) (p : Path) (sk1 : σ1) (sk2 : σ2) :
    (resolveSymlinkF e1 fs p sk1).1 = (resolveSymlinkF e2 fs p sk2).1 := by
  rw [resolveSymlinkF, resolveSymlinkF]
  cases h : innerResolveSymlink fs p with
  | ok x => rfl
  | error e => cases e <;> rfl

theorem relinkGo_indep {σ1 σ2 : Type} (e1 : String → σ1 → σ1) (e2 : String → σ2 → σ2) :
    ∀ (fuel : Nat) (job : Job) (fs : Entries) (sk1 : σ1) (sk2 : σ2),
      (relinkGo e1 fuel job fs sk1).1 = (relinkGo e2 fuel job fs sk2).1 ∧
      (relinkGo e1 fuel job fs sk1).2.1 = (relinkGo e2 fuel job fs sk2).2.1 := by
  intro fuel
  induction fuel with
  | zero => intro job fs sk1 sk2; exact ⟨rfl, rfl⟩
  | succ fuel ih =>
    intro job fs sk1 sk2
    cases job with
    | one path tgt =>
      cases tgt with
      | none =>
        cases hd : isDir fs path with
        | false =>
          rw [relinkGo_none_other_eq e1 fuel path fs sk1 hd,
              relinkGo_none_other_eq e2 fuel path fs sk2 hd]
          exact ⟨rfl, rfl⟩
        | true =>
          cases hn : readDirNames fs path with
          | error e =>
            rw [relinkGo_none_readErr e1 fuel path fs sk1 e hd hn,
                relinkGo_none_readErr e2 fuel path fs sk2 e hd hn]
            exact ⟨rfl, rfl⟩
          | ok names =>
            rw [relinkGo_none_walk e1 fuel path fs sk1 names hd hn,
                relinkGo_none_walk e2 fuel path fs sk2 names hd hn]
            exact ih (.walk path names) fs sk1 sk2
      | some dest =>
        by_cases he : dest = path
        · subst he
          rw [relinkGo_self_eq, relinkGo_self_eq]
          exact ⟨rfl, rfl⟩
        · cases hf : isFile fs dest with
          | true =>
            cases hm : maybeRemoveFile fs path with
            | error e =>
              rw [relinkGo_copy_removeErr e1 fuel path dest fs sk1 e he hf hm,
                  relinkGo_copy_removeErr e2 fuel path dest fs sk2 e he hf hm]
              exact ⟨rfl, rfl⟩
            | ok fs1 =>
              cases hc : copyFile fs1 dest path with
              | error e =>
                rw [relinkGo_copy_copyErr e1 fuel path dest fs fs1 sk1 e he hf hm hc,
                    relinkGo_copy_copyErr e2 fuel path dest fs fs1 sk2 e he hf hm hc]
                exact ⟨rfl, rfl⟩
              | ok fs2 =>
                rw [relinkGo_copy_ok e1 fuel path dest fs fs1 fs2 sk1 he hf hm hc,
                    relinkGo_copy_ok e2 fuel path dest fs fs1 fs2 sk2 he hf hm hc]
                exact ⟨rfl, rfl⟩
          | false =>
            cases hp : dest.isPrefixOf path with
            | true =>
              rw [relinkGo_skiprec_eq e1 fuel path dest fs sk1 he hf hp,
                  relinkGo_skiprec_eq e2 fuel path dest fs sk2 he hf hp]
              exact ⟨rfl, rfl⟩
            | false =>
              cases hm : maybeRemoveFile fs path with
              | error e =>
                rw [relinkGo_populate_removeErr e1 fuel path dest fs sk1 e he hf hp hm,
                    relinkGo_populate_removeErr e2 fuel path dest fs sk2 e he hf hp hm]
                exact ⟨rfl, rfl⟩
              | ok fs1 =>
                cases hc : createDir fs1 path with
                | error e =>
                  rw [relinkGo_populate_createErr e1 fuel path dest fs fs1 sk1 e
                        he hf hp hm hc,
                      relinkGo_populate_createErr e2 fuel path dest fs fs1 sk2 e
                        he hf hp hm hc]
                  exact ⟨rfl, rfl⟩
                | ok fs2 =>
                  cases hn : readDirNames fs2 dest with
                  | error e =>
                    rw [relinkGo_populate_readErr e1 fuel path dest fs fs1 fs2 sk1 e
                          he hf hp hm hc hn,
                        relinkGo_populate_readErr e2 fuel path dest fs fs1 fs2 sk2 e
                          he hf hp hm hc hn]
                    exact ⟨rfl, rfl⟩
                  | ok names =>
                    rw [relinkGo_populate_ok e1 fuel path dest fs fs1 fs2 sk1 names
                          he hf hp hm hc hn,
                        relinkGo_populate_ok e2 fuel path dest fs fs1 fs2 sk2 names
                          he hf hp hm hc hn]
                    exact ih (.many path dest names) fs2 _ _
    | many path dest ns =>
      cases ns with
      | nil =>
        rw [relinkGo_many_nil_eq, relinkGo_many_nil_eq]
        exact ⟨rfl, rfl⟩
      | cons n ns =>
        obtain ⟨hst, hfs⟩ := ih (.one (path ++ [n]) (some (dest ++ [n]))) fs sk1 sk2
        rcases h1 : relinkGo e1 fuel (.one (path ++ [n]) (some (dest ++ [n]))) fs sk1
          with ⟨st1, fsA, skA⟩
        rcases h2 : relinkGo e2 fuel (.one (path ++ [n]) (some (dest ++ [n]))) fs sk2
          with ⟨st2, fsB, skB⟩
        rw [h1, h2] at hst hfs
        have hst2 : st1 = st2 := hst
        have hfs2 : fsA = fsB := hfs
        subst hst2
        subst hfs2
        cases st1 with
        | error e =>
          rw [relinkGo_many_cons_err e1 fuel path dest n ns fs fsA sk1 skA e h1,
              relinkGo_many_cons_err e2 fuel path dest n ns fs fsA sk2 skB e h2]
          exact ⟨rfl, rfl⟩
        | ok u =>
          rw [relinkGo_many_cons_ok e1 fuel path dest n ns fs fsA sk1 skA u h1,
              relinkGo_many_cons_ok e2 fuel path dest n ns fs fsA sk2 skB u h2]
          exact ih (.many path dest ns) fsA skA skB
    | walk path ns =>
      cases ns with
      | nil =>
        rw [relinkGo_walk_nil_eq, relinkGo_walk_nil_eq]
        exact ⟨rfl, rfl⟩
      | cons n ns =>
        have hres := resolveSymlinkF_indep e1 e2 fs (path ++ [n]) sk1 sk2
        rcases hr1 : resolveSymlinkF e1 fs (path ++ [n]) sk1 with ⟨d1, skA⟩
        rcases hr2 : resolveSymlinkF e2 fs (path ++ [n]) sk2 with ⟨d2, skB⟩
        rw [hr1, hr2] at hres
        have hd : d1 = d2 := hres
        subst hd
        cases d1 with
        | error e =>
          rw [relinkGo_walk_cons_resolveErr e1 fuel path n ns fs sk1 skA e hr1,
              relinkGo_walk_cons_resolveErr e2 fuel path n ns fs sk2 skB e hr2]
          exact ⟨rfl, rfl⟩
        | ok dopt =>
          obtain ⟨hst, hfs⟩ := ih (.one (path ++ [n]) dopt) fs skA skB
          rcases h1 : relinkGo e1 fuel (.one (path ++ [n]) dopt) fs skA
            with ⟨st1, fsA, skA2⟩
          rcases h2 : relinkGo e2 fuel (.one (path ++ [n]) dopt) fs skB
            with ⟨st2, fsB, skB2⟩
          rw [h1, h2] at hst hfs
          have hst2 : st1 = st2 := hst
          have hfs2 : fsA = fsB := hfs
          subst hst2
          subst hfs2
          cases st1 with
          | error e =>
            rw [relinkGo_walk_cons_stepErr e1 fuel path n ns fs fsA sk1 skA skA2 dopt e
                  hr1 h1,
                relinkGo_walk_cons_stepErr e2 fuel path n ns fs fsA sk2 skB skB2 dopt e
                  hr2 h2]
            exact ⟨rfl, rfl⟩
          | ok u =>
            rw [relinkGo_walk_cons_ok e1 fuel path n ns fs fsA sk1 skA skA2 dopt u hr1 h1,
                relinkGo_walk_cons_ok e2 fuel path n ns fs fsA sk2 skB skB2 dopt u hr2 h2]
            exact ih (.walk path ns) fsA skA2 skB2

theorem execF_nil_eq {σ : Type} (emit : String → σ → σ) (cwd : Path) (fuel : Nat)
    (fs : Entries) (sk : σ) :
    execF emit cwd fuel [] fs sk = (.ok (), fs, sk) := rfl

theorem execF_cons_skip {σ : Type} (emit : String → σ → σ) (cwd : Path) (fuel : Nat)
    (p : RawPath) (ps : List RawPath) (fs : Entries) (sk : σ)
    (h : tryExists fs (absolutize cwd p) ≠ .ok true) :
    execF emit cwd fuel (p :: ps) fs sk
      = execF emit cwd fuel ps fs (emit (skipInputLine p) sk) := by
  cases ht : tryExists fs (absolutize cwd p) with
  | error e => simp only [execF, ht]
  | ok b =>
    cases b with
    | true => exact absurd ht h
    | false => simp only [execF, ht]

theorem execF_cons_resolveErr {σ : Type} (emit : String → σ → σ) (cwd : Path)
    (fuel : Nat) (p : RawPath) (ps : List RawPath) (fs : Entries) (sk sk1 : σ)
    (e : IoErr)
    (hx : tryExists fs (absolutize cwd p) = .ok true)
    (hr : resolveSymlinkF emit fs (absolutize cwd p) sk = (.error e, sk1)) :
    execF emit cwd fuel (p :: ps) fs sk = (.error e, fs, sk1) := by
  simp only [execF, hx, hr]

theorem execF_cons_relinkErr {σ : Type} (emit : String → σ → σ) (cwd : Path)
    (fuel : Nat) (p : RawPath) (ps : List RawPath) (fs fs1 : Entries)
    (sk sk1 sk2 : σ) (d : Option Path) (e : IoErr)
    (hx : tryExists fs (absolutize cwd p) = .ok true)
    (hr : resolveSymlinkF emit fs (absolutize cwd p) sk = (.ok d, sk1))
    (h2 : relinkF emit fuel (absolutize cwd p) d fs sk1 = (.error e, fs1, sk2)) :
    execF emit cwd fuel (p :: ps) fs sk = (.error e, fs1, sk2) := by
  simp only [execF, hx, hr, h2]

theorem execF_cons_ok {σ : Type} (emit : String → σ → σ) (cwd : Path)
    (fuel : Nat) (p : RawPath) (ps : List RawPath) (fs fs1 : Entries)
    (sk sk1 sk2 : σ) (d : Option Path) (u : Unit)
    (hx : tryExists fs (absolutize cwd p) = .ok true)
    (hr : resolveSymlinkF emit fs (absolutize cwd p) sk = (.ok d, sk1))
    (h2 : relinkF emit fuel (absolutize cwd p) d fs sk1 = (.ok u, fs1, sk2)) :
    execF emit cwd fuel (p :: ps) fs sk = execF emit cwd fuel ps fs1 sk2 := by
  simp only [execF, hx, hr, h2]

theorem execF_indep {σ1 σ2 : Type} (e1 : String → σ1 → σ1) (e2 : String → σ2 → σ2)
    (cwd : Path) (fuel : Nat) :
    ∀ (ps : List RawPath) (fs : Entries) (sk1 : σ1) (sk2 : σ2),
      (execF e1 cwd fuel ps fs sk1).1 = (execF e2 cwd fuel ps fs sk2).1 ∧
      (execF e1 cwd fuel ps fs sk1).2.1 = (execF e2 cwd fuel ps fs sk2).2.1 := by
  intro ps
  induction ps with
  | nil => intro fs sk1 sk2; exact ⟨rfl, rfl⟩
  | cons p ps ih =>
    intro fs sk1 sk2
    by_cases hx : tryExists fs (absolutize cwd p) = .ok true
    · have hres := resolveSymlinkF_indep e1 e2 fs (absolutize cwd p) sk1 sk2
      rcases hr1 : resolveSymlinkF e1 fs (absolutize cwd p) sk1 with ⟨d1, skA⟩
      rcases hr2 : resolveSymlinkF e2 fs (absolutize cwd p) sk2 with ⟨d2, skB⟩
      rw [hr1, hr2] at hres
      have hdd : d1 = d2 := hres
      subst hdd
      cases d1 with
      | error e =>
        rw [execF_cons_resolveErr e1 cwd fuel p ps fs sk1 skA e hx hr1,
            execF_cons_resolveErr e2 cwd fuel p ps fs sk2 skB e hx hr2]
        exact ⟨rfl, rfl⟩
      | ok dopt =>
        have hst : (relinkF e1 fuel (absolutize cwd p) dopt fs skA).1
            = (relinkF e2 fuel (absolutize cwd p) dopt fs skB).1 :=
          (relinkGo_indep e1 e2 fuel (.one (absolutize cwd p) dopt) fs skA skB).1
        have hfs : (relinkF e1 fuel (absolutize cwd p) dopt fs skA).2.1
            = (relinkF e2 fuel (absolutize cwd p) dopt fs skB).2.1 :=
          (relinkGo_indep e1 e2 fuel (.one (absolutize cwd p) dopt) fs skA skB).2
        rcases h1 : relinkF e1 fuel (absolutize cwd p) dopt fs skA with ⟨st1, fsA, skA2⟩
        rcases h2 : relinkF e2 fuel (absolutize cwd p) dopt fs skB with ⟨st2, fsB, skB2⟩
        rw [h1, h2] at hst hfs
        have hst2 : st1 = st2 := hst
        have hfs2 : fsA = fsB := hfs
        subst hst2
        subst hfs2
        cases st1 with
        | error e =>
          rw [execF_cons_relinkErr e1 cwd fuel p ps fs fsA sk1 skA skA2 dopt e hx hr1 h1,
              execF_cons_relinkErr e2 cwd fuel p ps fs fsA sk2 skB skB2 dopt e hx hr2 h2]
          exact ⟨rfl, rfl⟩
        | ok u =>
          rw [execF_cons_ok e1 cwd fuel p ps fs fsA sk1 skA skA2 dopt u hx hr1 h1,
              execF_cons_ok e2 cwd fuel p ps fs fsA sk2 skB skB2 dopt u hx hr2 h2]
          exact ih fsA skA2 skB2
    · rw [execF_cons_skip e1 cwd fuel p ps fs sk1 hx,
          execF_cons_skip e2 cwd fuel p ps fs sk2 hx]
      exact ih fs (e1 (skipInputLine p) sk1) (e2 (skipInputLine p) sk2)

theorem getEntry_isSome_of_mem_keys (es : Entries) (n : String)
    (h : n ∈ es.map (fun e => e.1)) : (getEntry es n).isSome = true := by
  induction es with
  | nil => simp at h
  | cons e rest ih =>
    simp only [List.map_cons, List.mem_cons] at h
    rcases h with h | h
    · subst h; simp [getEntry]
    · by_cases hm : e.1 = n
      · simp [getEntry, hm]
      · have hb : (e.1 == n) = false := by simpa using hm
        simp only [getEntry, hb, Bool.false_eq_true, if_false]
        exact ih h

/-- Claim C7: relink(path, Some dest) with dest = path (a top-level
self-referential link) emits exactly the one line SKIP SELF REFERENCE
dest, performs no filesystem mutation (the filesystem component of the
result is the input filesystem, so the entry at path, a symbolic link,
is untouched), and returns Ok. -/
theorem claim_C7 (fuel : Nat) (path : Path) (fs : Entries) (sk : List String) :
    relinkF emitL (fuel + 1) path (some path) fs sk
      = (.ok (), fs, sk ++ [skipSelfLine path]) :=
  relinkGo_self_eq emitL fuel path fs sk

/-- Claim C2: when the inner resolution of a link fails with the ELOOP
condition (raw os error 40, a self-referential link chain),
resolve_symlink emits exactly one SKIP SELF REFERENCE line and recovers
with Ok none, mutating nothing (it returns no filesystem at all); every
other failure is returned unchanged with nothing emitted. -/
theorem claim_C2 (fs : Entries) (p : Path) (sk : List String) :
    (innerResolveSymlink fs p = .error .loop →
      resolveSymlinkF emitL fs p sk = (.ok none, sk ++ [skipSelfLine p]))
    ∧ (∀ e : IoErr, innerResolveSymlink fs p = .error e → e ≠ .loop →
      resolveSymlinkF emitL fs p sk = (.error e, sk)) := by
  constructor
  · intro h
    rw [resolveSymlinkF]
    simp [h, emitL]
  · intro e h hne
    rw [resolveSymlinkF]
    simp only [h]

theorem claim_C2_witness :
    (innerResolveSymlink [("s", Node.link true ["s"])] ["s"] = .error .loop
      ∧ resolveSymlinkF emitL [("s", Node.link true ["s"])] ["s"] []
          = (.ok none, [skipSelfLine ["s"]]))
    ∧ (innerResolveSymlink [("b", Node.link true ["m"])] ["b"] = .error .notFound
      ∧ resolveSymlinkF emitL [("b", Node.link true ["m"])] ["b"] []
          = (.error .notFound, [])) :=
  ⟨⟨rfl, (claim_C2 [("s", Node.link true ["s"])] ["s"] []).1 rfl⟩,
   ⟨rfl, (claim_C2 [("b", Node.link true ["m"])] ["b"] []).2 .notFound rfl (by decide)⟩⟩

/-- Claim C9: resolve_symlink returns Ok none when the path's own
(non-following) metadata is not a symbolic link; when it is a link, the
stored target is canonicalized, a relative target first being joined to
the link's parent directory; a successful inner resolution is passed
through unchanged (Ok of the canonical target). -/
theorem claim_C9 (fs : Entries) (p : Path) :
    (∀ node, lstat fs p = .ok node → node.isLink = false →
      innerResolveSymlink fs p = .ok none)
    ∧ (∀ (ab : Bool) (tgt : List String) (parent : Path) (last : String),
        lstat fs p = .ok (.link ab tgt) → splitLast p = some (parent, last) →
        innerResolveSymlink fs p
          = (canonicalize fs (if ab then tgt else parent ++ tgt)).map some)
    ∧ (∀ x (sk : List String), innerResolveSymlink fs p = .ok x →
        resolveSymlinkF emitL fs p sk = (.ok x, sk)) := by
  refine ⟨?_, ?_, ?_⟩
  · intro node h hn
    rw [innerResolveSymlink]
    simp only [h]
    cases node with
    | file c => rfl
    | dir es => rfl
    | link ab tgt => simp [Node.isLink] at hn
  · intro ab tgt parent last h hs
    rw [innerResolveSymlink]
    simp only [h, hs]
    cases ab with
    | true => simp
    | false => simp
  · intro x sk h
    rw [resolveSymlinkF]
    simp only [h]

theorem claim_C9_witness :
    (innerResolveSymlink [("f", Node.file "x")] ["f"] = .ok none)
    ∧ (innerResolveSymlink [("d", Node.dir []), ("l", Node.link false ["d"])] ["l"]
        = .ok (some ["d"]))
    ∧ (resolveSymlinkF emitL [("d", Node.dir []), ("l", Node.link false ["d"])] ["l"] []
        = (.ok (some ["d"]), [])) := by
  refine ⟨?_, ?_, ?_⟩
  · exact (claim_C9 [("f", Node.file "x")] ["f"]).1 (Node.file "x") rfl rfl
  · have := (claim_C9 [("d", Node.dir []), ("l", Node.link false ["d"])] ["l"]).2.1
      false ["d"] [] "l" rfl rfl
    simpa using this
  · exact (claim_C9 [("d", Node.dir []), ("l", Node.link false ["d"])] ["l"]).2.2
      (some ["d"]) [] (by rfl)

/-- Counterexample to claim C3 as stated: its premise includes the case
dest = path (equality is a degenerate ancestor, explicitly included by
the claim), where dest is a directory and path lies within dest, yet the
program emits SKIP SELF REFERENCE, not SKIP RECURSIVE. -/
theorem claim_C3_counterexample :
    isDir [("d", Node.dir [])] ["d"] = true
    ∧ (["d"] : Path).isPrefixOf ["d"] = true
    ∧ relinkF emitL 1 ["d"] (some ["d"]) [("d", Node.dir [])] []
        = (.ok (), [("d", Node.dir [])], [skipSelfLine ["d"]])
    ∧ skipSelfLine ["d"] ≠ skipRecLine ["d"] :=
  ⟨rfl, rfl, rfl, by decide⟩

/-- Claim C3, amended: for relink(path, Some dest) where dest is a
directory and path lies strictly within dest (dest is a proper ancestor,
dest ≠ path), relink emits exactly one line SKIP RECURSIVE path, performs
no filesystem mutation, and returns Ok.  (The amendment excludes
dest = path, where the program emits SKIP SELF REFERENCE instead.) -/
theorem claim_C3 (fuel : Nat) (path dest : Path) (fs : Entries) (sk : List String)
    (hd : isDir fs dest = true) (hne : dest ≠ path)
    (hp : dest.isPrefixOf path = true) :
    relinkF emitL (fuel + 1) path (some dest) fs sk
      = (.ok (), fs, sk ++ [skipRecLine path]) :=
  relinkGo_skiprec_eq emitL fuel path dest fs sk hne
    (isFile_eq_false_of_isDir fs dest hd) hp

theorem claim_C3_witness :
    isDir [("d", Node.dir [("s", Node.link true ["d"])])] ["d"] = true
    ∧ (["d"] : Path).isPrefixOf ["d", "s"] = true
    ∧ relinkF emitL 1 ["d", "s"] (some ["d"])
        [("d", Node.dir [("s", Node.link true ["d"])])] []
        = (.ok (), [("d", Node.dir [("s", Node.link true ["d"])])],
           [skipRecLine ["d", "s"]]) :=
  ⟨rfl, rfl,
   claim_C3 0 ["d", "s"] ["d"] [("d", Node.dir [("s", Node.link true ["d"])])] []
     rfl (by decide) rfl⟩

/-- Claim C5: in the populate loop, each entry of the already-resolved
source directory is relinked with the entry's own path passed as the
already-resolved target: the step equation shows the recursion receives
some (dest/entry) directly, with no resolve_symlink (read_link or
canonicalize) call and no per-entry re-application of the guards beyond
the relink call itself; and the file/directory type checks used there
follow any further links transparently (they are invariant under
canonicalization). -/
theorem claim_C5 :
    (∀ (fuel : Nat) (path dest : Path) (n : String) (ns : List String)
       (fs : Entries) (sk : List String),
      relinkChildrenF emitL (fuel + 1) path dest (n :: ns) fs sk
        = (match relinkF emitL fuel (path ++ [n]) (some (dest ++ [n])) fs sk with
           | (.ok _, fs1, sk1) => relinkChildrenF emitL fuel path dest ns fs1 sk1
           | r => r))
    ∧ (∀ (fs : Entries) (p cp : Path), canonicalize fs p = .ok cp →
        isFile fs p = isFile fs cp ∧ isDir fs p = isDir fs cp) := by
  constructor
  · intro fuel path dest n ns fs sk
    rcases h1 : relinkF emitL fuel (path ++ [n]) (some (dest ++ [n])) fs sk
      with ⟨st, fs1, sk1⟩
    cases st with
    | error e =>
      show relinkGo emitL (fuel + 1) (.many path dest (n :: ns)) fs sk = _
      rw [relinkGo_many_cons_err emitL fuel path dest n ns fs fs1 sk sk1 e h1]
    | ok u =>
      show relinkGo emitL (fuel + 1) (.many path dest (n :: ns)) fs sk = _
      rw [relinkGo_many_cons_ok emitL fuel path dest n ns fs fs1 sk sk1 u h1]
      rfl
  · intro fs p cp h
    exact ⟨isFile_canon fs p cp h, isDir_canon fs p cp h⟩

theorem claim_C5_witness :
    canonicalize [("f", Node.file "x"), ("l", Node.link true ["f"])] ["l"]
        = .ok ["f"]
    ∧ isFile [("f", Node.file "x"), ("l", Node.link true ["f"])] ["l"]
        = isFile [("f", Node.file "x"), ("l", Node.link true ["f"])] ["f"] :=
  ⟨rfl,
   (claim_C5.2 [("f", Node.file "x"), ("l", Node.link true ["f"])] ["l"] ["f"] rfl).1⟩

/-- Claim C10: the sink is written through an emit function whose result
is discarded (the ignored writeln result), so the Ok/error status and the
resulting filesystem of resolve_symlink, relink and exec are identical
for any two sink behaviors whatsoever — in particular for a sink whose
writes fail and record nothing; no error ever originates from the sink. -/
theorem claim_C10 :
    (∀ (σ1 σ2 : Type) (e1 : String → σ1 → σ1) (e2 : String → σ2 → σ2)
       (fs : Entries) (p : Path) (sk1 : σ1) (sk2 : σ2),
      (resolveSymlinkF e1 fs p sk1).1 = (resolveSymlinkF e2 fs p sk2).1)
    ∧ (∀ (σ1 σ2 : Type) (e1 : String → σ1 → σ1) (e2 : String → σ2 → σ2)
         (fuel : Nat) (path : Path) (tgt : Option Path) (fs : Entries)
         (sk1 : σ1) (sk2 : σ2),
        (relinkF e1 fuel path tgt fs sk1).1 = (relinkF e2 fuel path tgt fs sk2).1
        ∧ (relinkF e1 fuel path tgt fs sk1).2.1
            = (relinkF e2 fuel path tgt fs sk2).2.1)
    ∧ (∀ (σ1 σ2 : Type) (e1 : String → σ1 → σ1) (e2 : String → σ2 → σ2)
         (cwd : Path) (fuel : Nat) (ps : List RawPath) (fs : Entries)
         (sk1 : σ1) (sk2 : σ2),
        (execF e1 cwd fuel ps fs sk1).1 = (execF e2 cwd fuel ps fs sk2).1
        ∧ (execF e1 cwd fuel ps fs sk1).2.1
            = (execF e2 cwd fuel ps fs sk2).2.1) := by
  refine ⟨?_, ?_, ?_⟩
  · intro σ1 σ2 e1 e2 fs p sk1 sk2
    exact resolveSymlinkF_indep e1 e2 fs p sk1 sk2
  · intro σ1 σ2 e1 e2 fuel path tgt fs sk1 sk2
    exact relinkGo_indep e1 e2 fuel (.one path tgt) fs sk1 sk2
  · intro σ1 σ2 e1 e2 cwd fuel ps fs sk1 sk2
    exact execF_indep e1 e2 cwd fuel ps fs sk1 sk2

/-- Claim C6: exec walks the inputs in order.  An input whose existence
check (following links) does not positively report true — including a
failing check — is reported with exactly one SKIP INPUT line and skipped
with the filesystem untouched; an existing input is classified once by
resolve_symlink, relinked exactly once at its absolute (non-canonical)
form, and the remaining inputs are processed on success; an error from
classification or relinking is returned at once, aborting every
subsequent input. -/
theorem claim_C6 (cwd : Path) (fuel : Nat) (p : RawPath) (ps : List RawPath)
    (fs : Entries) (sk : List String) :
    (tryExists fs (absolutize cwd p) ≠ .ok true →
      execF emitL cwd fuel (p :: ps) fs sk
        = execF emitL cwd fuel ps fs (sk ++ [skipInputLine p]))
    ∧ (∀ e sk1, tryExists fs (absolutize cwd p) = .ok true →
        resolveSymlinkF emitL fs (absolutize cwd p) sk = (.error e, sk1) →
        execF emitL cwd fuel (p :: ps) fs sk = (.error e, fs, sk1))
    ∧ (∀ d sk1 u fs1 sk2, tryExists fs (absolutize cwd p) = .ok true →
        resolveSymlinkF emitL fs (absolutize cwd p) sk = (.ok d, sk1) →
        relinkF emitL fuel (absolutize cwd p) d fs sk1 = (.ok u, fs1, sk2) →
        execF emitL cwd fuel (p :: ps) fs sk = execF emitL cwd fuel ps fs1 sk2)
    ∧ (∀ d sk1 e fs1 sk2, tryExists fs (absolutize cwd p) = .ok true →
        resolveSymlinkF emitL fs (absolutize cwd p) sk = (.ok d, sk1) →
        relinkF emitL fuel (absolutize cwd p) d fs sk1 = (.error e, fs1, sk2) →
        execF emitL cwd fuel (p :: ps) fs sk = (.error e, fs1, sk2)) := by
  refine ⟨?_, ?_, ?_, ?_⟩
  · intro h
    exact execF_cons_skip emitL cwd fuel p ps fs sk h
  · intro e sk1 hx hr
    exact execF_cons_resolveErr emitL cwd fuel p ps fs sk sk1 e hx hr
  · intro d sk1 u fs1 sk2 hx hr h2
    exact execF_cons_ok emitL cwd fuel p ps fs fs1 sk sk1 sk2 d u hx hr h2
  · intro d sk1 e fs1 sk2 hx hr h2
    exact execF_cons_relinkErr emitL cwd fuel p ps fs fs1 sk sk1 sk2 d e hx hr h2

theorem claim_C6_witness :
    (tryExists ([] : Entries) (absolutize [] ⟨true, ["x"]⟩) = .ok false
      ∧ execF emitL [] 1 [⟨true, ["x"]⟩] ([] : Entries) []
          = (.ok (), ([] : Entries), [skipInputLine ⟨true, ["x"]⟩]))
    ∧ (tryExists [("f", Node.file "x")] (absolutize [] ⟨true, ["f"]⟩) = .ok true
      ∧ execF emitL [] 1 [⟨true, ["f"]⟩] [("f", Node.file "x")] []
          = (.ok (), [("f", Node.file "x")], [])) := by
  refine ⟨⟨rfl, ?_⟩, ⟨rfl, ?_⟩⟩
  · have hne : tryExists ([] : Entries) (absolutize [] ⟨true, ["x"]⟩) ≠ .ok true := by
      rw [show tryExists ([] : Entries) (absolutize [] ⟨true, ["x"]⟩) = .ok false from rfl]
      simp
    have := (claim_C6 [] 1 ⟨true, ["x"]⟩ [] ([] : Entries) []).1 hne
    simpa using this
  · have := (claim_C6 [] 1 ⟨true, ["f"]⟩ [] [("f", Node.file "x")] []).2.2.1
      none [] () [("f", Node.file "x")] [] rfl rfl rfl
    simpa using this

/-- Claim C4: relink(path, Some dest) with dest a regular file and
dest ≠ path emits exactly one COPY line, removes the entry at path with a
not-found failure treated as success, and copies dest's bytes to path, so
that path afterwards holds a regular file with dest's byte content (third
part, for a path whose parent is a real directory and whose own entry was
removed). -/
theorem claim_C4 :
    (∀ (fuel : Nat) (path dest : Path) (fs fs1 fs2 : Entries) (sk : List String)
       (c : String),
      isFile fs dest = true → dest ≠ path →
      maybeRemoveFile fs path = .ok fs1 →
      readFileFollow fs1 dest = .ok c →
      writeFile fs1 path c = .ok fs2 →
      relinkF emitL (fuel + 1) path (some dest) fs sk
        = (.ok (), fs2, sk ++ [copyLine dest path]))
    ∧ (∀ (fs : Entries) (path : Path), removeFile fs path = .error .notFound →
        maybeRemoveFile fs path = .ok fs)
    ∧ (∀ (fs1 fs2 : Entries) (parent : Path) (last : String) (c : String)
         (es : Entries),
        rawLookup fs1 parent = some (.dir es) →
        getEntry es last = none →
        writeFile fs1 (parent ++ [last]) c = .ok fs2 →
        readFileFollow fs2 (parent ++ [last]) = .ok c) := by
  refine ⟨?_, ?_, ?_⟩
  · intro fuel path dest fs fs1 fs2 sk c hf hne hm hrd hw
    have hc : copyFile fs1 dest path = .ok fs2 := by
      rw [copyFile]
      simp only [hrd]
      exact hw
    exact relinkGo_copy_ok emitL fuel path dest fs fs1 fs2 sk hne hf hm hc
  · intro fs path h
    rw [maybeRemoveFile]
    simp only [h]
  · intro fs1 fs2 parent last c es hpar hge hw
    have hcan : canonicalize fs1 (parent ++ [last]) = .error .notFound :=
      canonicalize_snoc_none fs1 parent last es hpar hge
    have hsplit : splitLast (parent ++ [last]) = some (parent, last) :=
      splitLast_append parent last
    have hcpar : canonicalize fs1 parent = .ok parent :=
      canonicalize_of_dir fs1 parent es hpar
    have hfs2 : fs2 = updateDirAt parent (insertEntry last (.file c)) fs1 := by
      rw [writeFile] at hw
      simp only [hcan, hsplit, hcpar, hpar, Except.ok.injEq] at hw
      exact hw.symm
    have hpar2 : rawLookup fs2 parent
        = some (.dir (insertEntry last (.file c) es)) := by
      rw [hfs2]
      exact rawLookup_updateDirAt parent fs1 es (insertEntry last (.file c)) hpar
    have hraw2 : rawLookup fs2 (parent ++ [last]) = some (.file c) := by
      rw [rawLookup_snoc, hpar2]
      exact getEntry_insertEntry_self es last (.file c)
    rw [readFileFollow]
    simp only [statFollow_of_file fs2 (parent ++ [last]) c hraw2]

theorem claim_C4_witness :
    (isFile [("f", Node.file "x"), ("l", Node.link true ["f"])] ["f"] = true
      ∧ relinkF emitL 1 ["l"] (some ["f"])
          [("f", Node.file "x"), ("l", Node.link true ["f"])] []
          = (.ok (), [("f", Node.file "x"), ("l", Node.file "x")],
             [copyLine ["f"] ["l"]]))
    ∧ maybeRemoveFile [("a", Node.dir [])] ["z"] = .ok [("a", Node.dir [])]
    ∧ readFileFollow [("f", Node.file "x"), ("l", Node.file "x")] ["l"] = .ok "x" :=
  ⟨⟨rfl,
    claim_C4.1 0 ["l"] ["f"] [("f", Node.file "x"), ("l", Node.link true ["f"])]
      [("f", Node.file "x")] [("f", Node.file "x"), ("l", Node.file "x")] [] "x"
      rfl (by decide) rfl rfl rfl⟩,
   claim_C4.2.1 [("a", Node.dir [])] ["z"] rfl,
   claim_C4.2.2 [("f", Node.file "x")] [("f", Node.file "x"), ("l", Node.file "x")]
     [] "l" "x" [("f", Node.file "x")] rfl rfl rfl⟩

/-- Claim C1: relink(path, Some dest) with dest an existing directory not
an ancestor of path emits one POPULATE line, removes the entry at path
(tolerating not-found, embodied in maybeRemoveFile), creates a new empty
directory at path (second part: the created entry is an empty directory),
and then relinks every entry of dest, in the single enumeration's order,
each with its own path under dest passed as the already-resolved target
(the relinkChildrenF loop); the POPULATE line precedes every line emitted
for the children. -/
theorem claim_C1 :
    (∀ (fuel : Nat) (path dest : Path) (fs fs1 fs2 : Entries) (sk : List String)
       (names : List String),
      isDir fs dest = true → dest ≠ path → dest.isPrefixOf path = false →
      maybeRemoveFile fs path = .ok fs1 →
      createDir fs1 path = .ok fs2 →
      readDirNames fs2 dest = .ok names →
      relinkF emitL (fuel + 1) path (some dest) fs sk
        = relinkChildrenF emitL fuel path dest names fs2 (sk ++ [populateLine dest path])
      ∧ ∃ tail, (relinkF emitL (fuel + 1) path (some dest) fs sk).2.2
          = sk ++ populateLine dest path :: tail)
    ∧ (∀ (fs1 fs2 : Entries) (parent : Path) (last : String) (es : Entries),
        rawLookup fs1 parent = some (.dir es) →
        getEntry es last = none →
        createDir fs1 (parent ++ [last]) = .ok fs2 →
        rawLookup fs2 (parent ++ [last]) = some (.dir [])) := by
  constructor
  · intro fuel path dest fs fs1 fs2 sk names hd hne hp hm hc hn
    have hf := isFile_eq_false_of_isDir fs dest hd
    have heq := relinkGo_populate_ok emitL fuel path dest fs fs1 fs2 sk names
      hne hf hp hm hc hn
    constructor
    · exact heq
    · obtain ⟨t, ht⟩ := relinkGo_sink_mono fuel (.many path dest names) fs2
        (emitL (populateLine dest path) sk)
      refine ⟨t, ?_⟩
      show (relinkGo emitL (fuel + 1) (.one path (some dest)) fs sk).2.2 = _
      rw [heq, ht]
      simp [emitL]
  · intro fs1 fs2 parent last es hpar hge hc
    have hsplit : splitLast (parent ++ [last]) = some (parent, last) :=
      splitLast_append parent last
    have hcpar : canonicalize fs1 parent = .ok parent :=
      canonicalize_of_dir fs1 parent es hpar
    have hfs2 : fs2 = updateDirAt parent (insertEntry last (.dir [])) fs1 := by
      rw [createDir] at hc
      simp only [hsplit, hcpar, hpar, hge, Except.ok.injEq] at hc
      exact hc.symm
    have hpar2 : rawLookup fs2 parent
        = some (.dir (insertEntry last (.dir []) es)) := by
      rw [hfs2]
      exact rawLookup_updateDirAt parent fs1 es (insertEntry last (.dir [])) hpar
    rw [rawLookup_snoc, hpar2]
    exact getEntry_insertEntry_self es last (.dir [])

theorem claim_C1_witness :
    (isDir [("d", Node.dir [("f", Node.file "x")]), ("l", Node.link true ["d"])]
        ["d"] = true
      ∧ relinkF emitL 4 ["l"] (some ["d"])
          [("d", Node.dir [("f", Node.file "x")]), ("l", Node.link true ["d"])] []
          = relinkChildrenF emitL 3 ["l"] ["d"] ["f"]
              [("d", Node.dir [("f", Node.file "x")]), ("l", Node.dir [])]
              [populateLine ["d"] ["l"]])
    ∧ rawLookup [("d", Node.dir [("f", Node.file "x")]), ("l", Node.dir [])] ["l"]
        = some (.dir []) :=
  ⟨⟨rfl,
    (claim_C1.1 3 ["l"] ["d"]
      [("d", Node.dir [("f", Node.file "x")]), ("l", Node.link true ["d"])]
      [("d", Node.dir [("f", Node.file "x")])]
      [("d", Node.dir [("f", Node.file "x")]), ("l", Node.dir [])]
      [] ["f"] rfl (by decide) rfl rfl rfl rfl).1⟩,
   claim_C1.2 [("d", Node.dir [("f", Node.file "x")])]
     [("d", Node.dir [("f", Node.file "x")]), ("l", Node.dir [])]
     [] "l" [("d", Node.dir [("f", Node.file "x")])] rfl rfl rfl⟩

theorem isDir_statFollow (fs : Entries) (p : Path) (h : isDir fs p = true) :
    ∃ es, statFollow fs p = .ok (.dir es) := by
  cases hs : statFollow fs p with
  | error e => simp [isDir, hs] at h
  | ok node =>
    cases node with
    | dir es => exact ⟨es, rfl⟩
    | file c => simp [isDir, hs] at h
    | link ab tgt => simp [isDir, hs] at h

theorem statFollow_linkFree_raw (fs : Entries) (p : Path) (node : Node)
    (hfs : entriesLinkFree fs = true) (h : statFollow fs p = .ok node) :
    canonicalize fs p = .ok p ∧ rawLookup fs p = some node := by
  rcases canonicalize_linkFree fs hfs p with hc | hc | hc
  · refine ⟨hc, ?_⟩
    rw [statFollow] at h
    simp only [hc] at h
    cases hl : rawLookup fs p with
    | none => simp only [hl] at h; exact absurd h (by simp)
    | some node2 =>
      simp only [hl, Except.ok.injEq] at h
      rw [h]
  · rw [statFollow] at h
    simp only [hc] at h
    exact absurd h (by simp)
  · rw [statFollow] at h
    simp only [hc] at h
    exact absurd h (by simp)

/-- On a link-free filesystem the recursive descend of relink(path, None)
performs no mutation and emits nothing: the resulting filesystem and sink
are the inputs, and the status is Ok (or the interpreter's artificial
out-of-fuel error).  Stated jointly for the descend call and its loop. -/
theorem relinkGo_linkFree_noop (fs : Entries) (hfs : entriesLinkFree fs = true) :
    ∀ (fuel : Nat),
      (∀ (path : Path) (sk : List String),
        ((relinkGo emitL fuel (.one path none) fs sk).1 = .ok ()
          ∨ (relinkGo emitL fuel (.one path none) fs sk).1 = .error .fuelOut)
        ∧ (relinkGo emitL fuel (.one path none) fs sk).2.1 = fs
        ∧ (relinkGo emitL fuel (.one path none) fs sk).2.2 = sk)
      ∧ (∀ (path : Path) (ns : List String) (es : Entries) (sk : List String),
        rawLookup fs path = some (.dir es) →
        (∀ n, n ∈ ns → (getEntry es n).isSome = true) →
        ((relinkGo emitL fuel (.walk path ns) fs sk).1 = .ok ()
          ∨ (relinkGo emitL fuel (.walk path ns) fs sk).1 = .error .fuelOut)
        ∧ (relinkGo emitL fuel (.walk path ns) fs sk).2.1 = fs
        ∧ (relinkGo emitL fuel (.walk path ns) fs sk).2.2 = sk) := by
  intro fuel
  induction fuel with
  | zero =>
    constructor
    · intro path sk
      exact ⟨Or.inr rfl, rfl, rfl⟩
    · intro path ns es sk _ _
      exact ⟨Or.inr rfl, rfl, rfl⟩
  | succ fuel ih =>
    constructor
    · intro path sk
      cases hd : isDir fs path with
      | false =>
        rw [relinkGo_none_other_eq emitL fuel path fs sk hd]
        exact ⟨Or.inl rfl, rfl, rfl⟩
      | true =>
        obtain ⟨es, hs⟩ := isDir_statFollow fs path hd
        obtain ⟨hcan, hraw⟩ := statFollow_linkFree_raw fs path (.dir es) hfs hs
        have hn : readDirNames fs path = .ok (es.map (fun e => e.1)) := by
          rw [readDirNames]
          simp only [hs]
        rw [relinkGo_none_walk emitL fuel path fs sk (es.map (fun e => e.1)) hd hn]
        exact ih.2 path (es.map (fun e => e.1)) es sk hraw
          (fun n hm => getEntry_isSome_of_mem_keys es n hm)
    · intro path ns es sk hraw hmem
      cases ns with
      | nil =>
        rw [relinkGo_walk_nil_eq]
        exact ⟨Or.inl rfl, rfl, rfl⟩
      | cons n ns =>
        have hcanp : canonicalize fs path = .ok path :=
          canonicalize_of_dir fs path es hraw
        have hget : (getEntry es n).isSome = true := hmem n (by simp)
        obtain ⟨node, hnode⟩ : ∃ node, getEntry es n = some node := by
          cases hg : getEntry es n with
          | none => rw [hg] at hget; simp at hget
          | some node => exact ⟨node, rfl⟩
        have hrawn : rawLookup fs (path ++ [n]) = some node := by
          rw [rawLookup_snoc, hraw]
          exact hnode
        have hlstat : lstat fs (path ++ [n]) = .ok node := by
          rw [lstat]
          simp only [splitLast_append, hcanp, hrawn]
        have hnl : nodeLinkFree node = true :=
          rawLookup_linkFree (path ++ [n]) fs node hfs hrawn
        have hinner : innerResolveSymlink fs (path ++ [n]) = .ok none := by
          rw [innerResolveSymlink]
          simp only [hlstat]
          cases node with
          | file c => rfl
          | dir es2 => rfl
          | link ab tgt => simp [nodeLinkFree] at hnl
        have hres : resolveSymlinkF emitL fs (path ++ [n]) sk = (.ok none, sk) := by
          rw [resolveSymlinkF]
          simp only [hinner]
        obtain ⟨hst1, hfs1, hsk1⟩ := ih.1 (path ++ [n]) sk
        rcases h1 : relinkGo emitL fuel (.one (path ++ [n]) none) fs sk
          with ⟨st, fs1, sk1⟩
        rw [h1] at hst1 hfs1 hsk1
        have h1b : relinkGo emitL fuel (.one (path ++ [n]) none) fs sk
            = (st, fs, sk) := by
          rw [h1]
          have hfs1b : fs1 = fs := hfs1
          have hsk1b : sk1 = sk := hsk1
          rw [hfs1b, hsk1b]
        cases st with
        | ok u =>
          rw [relinkGo_walk_cons_ok emitL fuel path n ns fs fs sk sk sk none u
            hres h1b]
          exact ih.2 path ns es sk hraw (fun m hm => hmem m (by simp [hm]))
        | error e =>
          have he : e = .fuelOut := by
            rcases hst1 with hst1 | hst1
            · exact absurd hst1 (by simp)
            · simpa using hst1
          subst he
          rw [relinkGo_walk_cons_stepErr emitL fuel path n ns fs fs sk sk sk none
            .fuelOut hres h1b]
          exact ⟨Or.inr rfl, rfl, rfl⟩

/-- Claim C8: applying the transform to a tree containing no symbolic
links is a no-op: relink with no resolved target emits no line at all (in
particular no COPY or POPULATE line) and leaves the filesystem exactly as
it was, succeeding (or exhausting the interpreter's artificial fuel).
This is the fixed-point form of the idempotence property: a subtree fully
materialized by a successful first run contains no links, so a second run
over it emits nothing and changes nothing. -/
theorem claim_C8 (fuel : Nat) (path : Path) (fs : Entries) (sk : List String)
    (hfs : entriesLinkFree fs = true) :
    ((relinkF emitL fuel path none fs sk).1 = .ok ()
      ∨ (relinkF emitL fuel path none fs sk).1 = .error .fuelOut)
    ∧ (relinkF emitL fuel path none fs sk).2.1 = fs
    ∧ (relinkF emitL fuel path none fs sk).2.2 = sk :=
  (relinkGo_linkFree_noop fs hfs fuel).1 path sk

theorem claim_C8_witness :
    entriesLinkFree [("a", Node.dir [("f", Node.file "x")])] = true
    ∧ ((relinkF emitL 3 ["a"] none [("a", Node.dir [("f", Node.file "x")])] []).1
          = .ok ()
        ∨ (relinkF emitL 3 ["a"] none [("a", Node.dir [("f", Node.file "x")])] []).1
          = .error .fuelOut)
    ∧ (relinkF emitL 3 ["a"] none [("a", Node.dir [("f", Node.file "x")])] []).2.1
        = [("a", Node.dir [("f", Node.file "x")])]
    ∧ (relinkF emitL 3 ["a"] none [("a", Node.dir [("f", Node.file "x")])] []).2.2
        = [] := by
  have hfs : entriesLinkFree [("a", Node.dir [("f", Node.file "x")])] = true := by
    simp [entriesLinkFree]
  exact ⟨hfs, claim_C8 3 ["a"] [("a", Node.dir [("f", Node.file "x")])] [] hfs⟩

end Delink
